import Mathlib

/-!
Verification development for the distributed Mandelbrot renderer
(`fractal_C_MPI_live_CLIArgs.c`).

The C code's `double` arithmetic is modelled by the real numbers `ℝ`;
C's `double → int` conversion (truncation toward zero) is modelled by
`truncToInt`.  Machine-integer overflow plays no role at the sizes the
program handles, so C `int` values are modelled by `ℕ`/`ℤ` directly.
-/

namespace Fractal

/-- Truncation toward zero, the semantics of C's `double → int` conversion. -/
noncomputable def truncToInt (r : ℝ) : ℤ :=
  if 0 ≤ r then ⌊r⌋ else ⌈r⌉

/-- The escape loop of `mandelbrot`:
`while (x*x + y*y <= 4.0 && iter < max_iter) { xtemp = x*x - y*y + x0; y = 2*x*y + y0; x = xtemp; iter++; }`.
The conjunct `iter < max_iter` is represented by the fuel argument: the loop is
entered with `fuel = max_iter` and `iter = 0`, and `fuel = max_iter - iter`
throughout, so fuel exhaustion is exactly `iter = max_iter`.
Returns the final `(x, y, iter)`. -/
noncomputable def mandelAux (x0 y0 : ℝ) : ℕ → ℝ → ℝ → ℕ → ℝ × ℝ × ℕ
  | 0, x, y, iter => (x, y, iter)
  | fuel + 1, x, y, iter =>
      if x * x + y * y ≤ 4 then
        mandelAux x0 y0 fuel (x * x - y * y + x0) (2 * x * y + y0) (iter + 1)
      else (x, y, iter)

/-- The escape loop run from `(x, y) = (0, 0)`, `iter = 0`. -/
noncomputable def mandelbrotCore (x0 y0 : ℝ) (maxIter : ℕ) : ℝ × ℝ × ℕ :=
  mandelAux x0 y0 maxIter 0 0 0

/-- The smooth escape count computed by `mandelbrot` after the loop:
`log_zn = log(x*x + y*y) / 2.0; nu = log(log_zn / log(2)) / log(2);
return iter + 1 - nu;`. -/
noncomputable def smoothValue (x y : ℝ) (iter : ℕ) : ℝ :=
  iter + 1 - Real.log (Real.log (x * x + y * y) / 2 / Real.log 2) / Real.log 2

/-- The C function `int mandelbrot(double x0, double y0, int max_iter)`.
If the loop ran all `max_iter` iterations it returns `max_iter`; otherwise the
smooth count `iter + 1 - nu` is computed as a `double` and implicitly
converted to `int`, i.e. truncated toward zero. -/
noncomputable def mandelbrot (x0 y0 : ℝ) (maxIter : ℕ) : ℤ :=
  let res := mandelbrotCore x0 y0 maxIter
  if res.2.2 = maxIter then (maxIter : ℤ)
  else truncToInt (smoothValue res.1 res.2.1 res.2.2)

lemma truncToInt_of_nonneg {r : ℝ} (h : 0 ≤ r) : truncToInt r = ⌊r⌋ := by
  simp [truncToInt, h]

lemma mandelAux_iter_le (x0 y0 : ℝ) :
    ∀ fuel x y iter, (mandelAux x0 y0 fuel x y iter).2.2 ≤ iter + fuel := by
  intro fuel
  induction fuel with
  | zero => intro x y iter; simp [mandelAux]
  | succ n ih =>
      intro x y iter
      by_cases h : x * x + y * y ≤ 4
      · simp only [mandelAux, h, if_true]
        have := ih (x * x - y * y + x0) (2 * x * y + y0) (iter + 1)
        omega
      · simp only [mandelAux, h, if_false]
        omega

lemma mandelAux_iter_ge (x0 y0 : ℝ) :
    ∀ fuel x y iter, iter ≤ (mandelAux x0 y0 fuel x y iter).2.2 := by
  intro fuel
  induction fuel with
  | zero => intro x y iter; simp [mandelAux]
  | succ n ih =>
      intro x y iter
      by_cases h : x * x + y * y ≤ 4
      · have := ih (x * x - y * y + x0) (2 * x * y + y0) (iter + 1)
        simp only [mandelAux, h, if_true]
        omega
      · simp [mandelAux, h]

/-- If the loop stopped before exhausting its fuel, it stopped because the
escape condition failed: the final point satisfies `x² + y² > 4`. -/
lemma mandelAux_escape (x0 y0 : ℝ) :
    ∀ fuel x y iter, (mandelAux x0 y0 fuel x y iter).2.2 < iter + fuel →
      4 < (mandelAux x0 y0 fuel x y iter).1 * (mandelAux x0 y0 fuel x y iter).1 +
          (mandelAux x0 y0 fuel x y iter).2.1 * (mandelAux x0 y0 fuel x y iter).2.1 := by
  intro fuel
  induction fuel with
  | zero => intro x y iter h; simp [mandelAux] at h
  | succ n ih =>
      intro x y iter h
      by_cases hc : x * x + y * y ≤ 4
      · simp only [mandelAux, hc, if_true] at h ⊢
        exact ih _ _ (iter + 1) (by omega)
      · simp only [mandelAux, hc, if_false]
        push_neg at hc
        exact hc

lemma mandelAux_zero_zero :
    ∀ fuel iter, mandelAux 0 0 fuel 0 0 iter = (0, 0, iter + fuel) := by
  intro fuel
  induction fuel with
  | zero => intro iter; simp [mandelAux]
  | succ n ih =>
      intro iter
      have h : (0 : ℝ) * 0 + 0 * 0 ≤ 4 := by norm_num
      rw [mandelAux, if_pos h]
      norm_num
      rw [ih (iter + 1)]
      norm_num
      omega

/-- On input `(0, 0)` the loop never escapes and the kernel returns `maxIter`. -/
lemma mandelbrotCore_zero (maxIter : ℕ) : mandelbrotCore 0 0 maxIter = (0, 0, maxIter) := by
  have := mandelAux_zero_zero maxIter 0
  simpa [mandelbrotCore] using this

lemma mandelbrot_zero (maxIter : ℕ) : mandelbrot 0 0 maxIter = (maxIter : ℤ) := by
  simp [mandelbrot, mandelbrotCore_zero]

/-- On input `(2, 0)` the loop runs exactly two iterations
(`z₁ = 2` has `|z₁|² = 4 ≤ 4`, so the boundary test keeps iterating) and
exits at `(x, y) = (6, 0)` with `iter = 2`, for any remaining fuel. -/
lemma mandelAux_two_zero (k : ℕ) : mandelAux 2 0 (k + 3) 0 0 0 = (6, 0, 2) := by
  have h0 : (0 : ℝ) * 0 + 0 * 0 ≤ 4 := by norm_num
  rw [show k + 3 = (k + 2) + 1 by omega, mandelAux, if_pos h0]
  norm_num
  have h1 : (2 : ℝ) * 2 + 0 * 0 ≤ 4 := by norm_num
  rw [show k + 2 = (k + 1) + 1 by omega, mandelAux, if_pos h1]
  norm_num
  have h2 : ¬ ((6 : ℝ) * 6 + 0 * 0 ≤ 4) := by norm_num
  rw [mandelAux, if_neg h2]

lemma mandelbrotCore_two_zero {maxIter : ℕ} (h : 3 ≤ maxIter) :
    mandelbrotCore 2 0 maxIter = (6, 0, 2) := by
  rw [mandelbrotCore, show maxIter = (maxIter - 3) + 3 by omega, mandelAux_two_zero]

section SmoothBounds

/-- The correction term `nu = log(log_zn / log 2) / log 2` is positive whenever
the final squared radius exceeds `4`. -/
lemma nu_pos {s : ℝ} (h : 4 < s) :
    0 < Real.log (Real.log s / 2 / Real.log 2) / Real.log 2 := by
  have l2 : (0 : ℝ) < Real.log 2 := Real.log_pos (by norm_num)
  have h4 : Real.log 4 < Real.log s := Real.log_lt_log (by norm_num) h
  have e4 : Real.log 4 = 2 * Real.log 2 := by
    rw [show (4 : ℝ) = 2 ^ 2 by norm_num, Real.log_pow]
    push_cast; ring
  have harg : 1 < Real.log s / 2 / Real.log 2 := by
    rw [lt_div_iff₀ l2, one_mul, lt_div_iff₀ (by norm_num : (0:ℝ) < 2)]
    nlinarith
  exact div_pos (Real.log_pos harg) l2

/-- When additionally the final squared radius is at most `16`, the correction
term `nu` is at most `1`. -/
lemma nu_le_one {s : ℝ} (h4 : 4 < s) (h16 : s ≤ 16) :
    Real.log (Real.log s / 2 / Real.log 2) / Real.log 2 ≤ 1 := by
  have l2 : (0 : ℝ) < Real.log 2 := Real.log_pos (by norm_num)
  have hls : Real.log s ≤ Real.log 16 := Real.log_le_log (by linarith) h16
  have e16 : Real.log 16 = 4 * Real.log 2 := by
    rw [show (16 : ℝ) = 2 ^ 4 by norm_num, Real.log_pow]
    push_cast; ring
  have harg1 : 1 < Real.log s / 2 / Real.log 2 := by
    have h4' : Real.log 4 < Real.log s := Real.log_lt_log (by norm_num) h4
    have e4 : Real.log 4 = 2 * Real.log 2 := by
      rw [show (4 : ℝ) = 2 ^ 2 by norm_num, Real.log_pow]
      push_cast; ring
    rw [lt_div_iff₀ l2, one_mul, lt_div_iff₀ (by norm_num : (0:ℝ) < 2)]
    nlinarith
  have harg2 : Real.log s / 2 / Real.log 2 ≤ 2 := by
    rw [div_le_iff₀ l2, div_le_iff₀ (by norm_num : (0:ℝ) < 2)]
    nlinarith
  have : Real.log (Real.log s / 2 / Real.log 2) ≤ Real.log 2 :=
    Real.log_le_log (by linarith) harg2
  rw [div_le_one l2]
  exact this

lemma smoothValue_lt {x y : ℝ} (iter : ℕ) (h4 : 4 < x * x + y * y) :
    smoothValue x y iter < iter + 1 := by
  have := nu_pos h4
  unfold smoothValue
  linarith

lemma smoothValue_ge {x y : ℝ} (iter : ℕ) (h4 : 4 < x * x + y * y)
    (h16 : x * x + y * y ≤ 16) : (iter : ℝ) ≤ smoothValue x y iter := by
  have := nu_le_one h4 h16
  unfold smoothValue
  linarith

/-- Bounds on the correction term for squared radius `36` (the final state of
the loop on input `(2, 0)`). -/
lemma nu36_bounds :
    1 < Real.log (Real.log 36 / 2 / Real.log 2) / Real.log 2 ∧
    Real.log (Real.log 36 / 2 / Real.log 2) / Real.log 2 < 2 := by
  have l2 : (0 : ℝ) < Real.log 2 := Real.log_pos (by norm_num)
  have e16 : Real.log 16 = 4 * Real.log 2 := by
    rw [show (16 : ℝ) = 2 ^ 4 by norm_num, Real.log_pow]
    push_cast; ring
  have e256 : Real.log 256 = 8 * Real.log 2 := by
    rw [show (256 : ℝ) = 2 ^ 8 by norm_num, Real.log_pow]
    push_cast; ring
  have h16 : Real.log 16 < Real.log 36 := Real.log_lt_log (by norm_num) (by norm_num)
  have h256 : Real.log 36 < Real.log 256 := Real.log_lt_log (by norm_num) (by norm_num)
  have harg2 : 2 < Real.log 36 / 2 / Real.log 2 := by
    rw [lt_div_iff₀ l2, lt_div_iff₀ (by norm_num : (0:ℝ) < 2)]
    nlinarith
  have harg4 : Real.log 36 / 2 / Real.log 2 < 4 := by
    rw [div_lt_iff₀ l2, div_lt_iff₀ (by norm_num : (0:ℝ) < 2)]
    nlinarith
  constructor
  · have : Real.log 2 < Real.log (Real.log 36 / 2 / Real.log 2) :=
      Real.log_lt_log (by norm_num) harg2
    rw [lt_div_iff₀ l2, one_mul]
    exact this
  · have e4 : Real.log 4 = 2 * Real.log 2 := by
      rw [show (4 : ℝ) = 2 ^ 2 by norm_num, Real.log_pow]
      push_cast; ring
    have : Real.log (Real.log 36 / 2 / Real.log 2) < Real.log 4 :=
      Real.log_lt_log (by linarith) harg4
    rw [div_lt_iff₀ l2]
    linarith

/-- On input `(2, 0)` with at least three iterations available, the kernel
returns the integer `1`: the smooth count `3 - nu` lies in `(1, 2)` and is
truncated. -/
lemma mandelbrot_two_zero {maxIter : ℕ} (h : 3 ≤ maxIter) :
    mandelbrot 2 0 maxIter = 1 := by
  have hc := mandelbrotCore_two_zero h
  have h2ne : (2 : ℕ) ≠ maxIter := by omega
  rw [mandelbrot]
  simp [hc, h2ne]
  have hv : smoothValue 6 0 2 =
      3 - Real.log (Real.log 36 / 2 / Real.log 2) / Real.log 2 := by
    unfold smoothValue
    norm_num
  obtain ⟨h1, h2⟩ := nu36_bounds
  rw [hv, truncToInt_of_nonneg (by linarith)]
  rw [Int.floor_eq_iff]
  constructor
  · push_cast
    linarith
  · push_cast
    linarith

lemma truncToInt_lt_nat {r : ℝ} {n : ℕ} (hn : 1 ≤ n) (h : r < n) :
    truncToInt r < (n : ℤ) := by
  unfold truncToInt
  split
  · exact Int.floor_lt.mpr (by exact_mod_cast h)
  · rename_i hr
    have hle : ⌈r⌉ ≤ 0 := Int.ceil_le.mpr (by exact_mod_cast le_of_not_le hr)
    have : (1 : ℤ) ≤ (n : ℤ) := by exact_mod_cast hn
    omega

end SmoothBounds

lemma mandelbrotCore_iter_le (x0 y0 : ℝ) (maxIter : ℕ) :
    (mandelbrotCore x0 y0 maxIter).2.2 ≤ maxIter := by
  have := mandelAux_iter_le x0 y0 maxIter 0 0 0
  simpa [mandelbrotCore] using this

lemma mandelbrotCore_escape (x0 y0 : ℝ) (maxIter : ℕ)
    (h : (mandelbrotCore x0 y0 maxIter).2.2 < maxIter) :
    4 < (mandelbrotCore x0 y0 maxIter).1 * (mandelbrotCore x0 y0 maxIter).1 +
        (mandelbrotCore x0 y0 maxIter).2.1 * (mandelbrotCore x0 y0 maxIter).2.1 := by
  have := mandelAux_escape x0 y0 maxIter 0 0 0 (by simpa [mandelbrotCore] using h)
  simpa [mandelbrotCore] using this

/-- The kernel's return value never exceeds `maxIter`. -/
lemma mandelbrot_le (x0 y0 : ℝ) {maxIter : ℕ} (hm : 1 ≤ maxIter) :
    mandelbrot x0 y0 maxIter ≤ (maxIter : ℤ) := by
  rw [mandelbrot]
  by_cases h : (mandelbrotCore x0 y0 maxIter).2.2 = maxIter
  · simp [h]
  · simp only [h, if_false]
    have hlt : (mandelbrotCore x0 y0 maxIter).2.2 < maxIter :=
      lt_of_le_of_ne (mandelbrotCore_iter_le x0 y0 maxIter) h
    have hesc := mandelbrotCore_escape x0 y0 maxIter hlt
    have := smoothValue_lt (x := (mandelbrotCore x0 y0 maxIter).1)
      (y := (mandelbrotCore x0 y0 maxIter).2.1) (mandelbrotCore x0 y0 maxIter).2.2 hesc
    have hvlt : smoothValue (mandelbrotCore x0 y0 maxIter).1
        (mandelbrotCore x0 y0 maxIter).2.1 (mandelbrotCore x0 y0 maxIter).2.2 <
        (maxIter : ℝ) := by
      have : ((mandelbrotCore x0 y0 maxIter).2.2 : ℝ) + 1 ≤ (maxIter : ℝ) := by
        exact_mod_cast hlt
      linarith
    exact le_of_lt (truncToInt_lt_nat hm hvlt)

/-- The kernel returns exactly `maxIter` if and only if the loop ran all
`maxIter` iterations (no escape test ever succeeded). -/
lemma mandelbrot_eq_max_iff (x0 y0 : ℝ) {maxIter : ℕ} (hm : 1 ≤ maxIter) :
    mandelbrot x0 y0 maxIter = (maxIter : ℤ) ↔
      (mandelbrotCore x0 y0 maxIter).2.2 = maxIter := by
  constructor
  · intro h
    by_contra hne
    have hlt : (mandelbrotCore x0 y0 maxIter).2.2 < maxIter :=
      lt_of_le_of_ne (mandelbrotCore_iter_le x0 y0 maxIter) hne
    have hesc := mandelbrotCore_escape x0 y0 maxIter hlt
    have hsm := smoothValue_lt (x := (mandelbrotCore x0 y0 maxIter).1)
      (y := (mandelbrotCore x0 y0 maxIter).2.1) (mandelbrotCore x0 y0 maxIter).2.2 hesc
    have hvlt : smoothValue (mandelbrotCore x0 y0 maxIter).1
        (mandelbrotCore x0 y0 maxIter).2.1 (mandelbrotCore x0 y0 maxIter).2.2 <
        (maxIter : ℝ) := by
      have : ((mandelbrotCore x0 y0 maxIter).2.2 : ℝ) + 1 ≤ (maxIter : ℝ) := by
        exact_mod_cast hlt
      linarith
    have := truncToInt_lt_nat hm hvlt
    rw [mandelbrot] at h
    simp only [hne, if_false] at h
    omega
  · intro h
    rw [mandelbrot]
    simp [h]

/-- C's `fmod(a, b)`: `a - b * trunc(a / b)` (result has the sign of `a`). -/
noncomputable def fmodR (a b : ℝ) : ℝ :=
  a - b * (truncToInt (a / b) : ℝ)

/-- The C function `void iteration_to_color(double iter, int max_iter, unsigned char* rgb)`.
Returns the `(rgb[0], rgb[1], rgb[2])` triple; the `double → unsigned char`
conversions are modelled as truncation toward zero (all stored values are in
range for the inputs the program produces). -/
noncomputable def iteration_to_color (iter : ℝ) (maxIter : ℕ) : ℤ × ℤ × ℤ :=
  if (maxIter : ℝ) ≤ iter then (0, 0, 0)
  else
    let t := iter / (maxIter : ℝ)
    let hue := 360 * t
    let c : ℝ := 1
    let x := c * (1 - |fmodR (hue / 60) 2 - 1|)
    let m : ℝ := 0
    let rgb : ℝ × ℝ × ℝ :=
      if hue < 60 then (c, x, 0)
      else if hue < 120 then (x, c, 0)
      else if hue < 180 then (0, c, x)
      else if hue < 240 then (0, x, c)
      else if hue < 300 then (x, 0, c)
      else (c, 0, x)
    (truncToInt ((rgb.1 + m) * 255), truncToInt ((rgb.2.1 + m) * 255),
      truncToInt ((rgb.2.2 + m) * 255))

/-- The color mapper as the specification words it (section 4.2): sextant
selected by `⌊H/60⌋`, `X = 1 − |((H/60) mod 2) − 1|` with the real mod,
`C = 1`, output bytes `trunc(channel · 255)`.  Stated separately from
`iteration_to_color` purely for comparison. -/
noncomputable def hsvSpecColor (i : ℝ) (maxIter : ℕ) : ℤ × ℤ × ℤ :=
  if (maxIter : ℝ) ≤ i then (0, 0, 0)
  else
    let t := i / (maxIter : ℝ)
    let H := 360 * t
    let X : ℝ := 1 - |(H / 60 - 2 * (⌊H / 60 / 2⌋ : ℝ)) - 1|
    let sel : ℝ × ℝ × ℝ :=
      if ⌊H / 60⌋ = 0 then (1, X, 0)
      else if ⌊H / 60⌋ = 1 then (X, 1, 0)
      else if ⌊H / 60⌋ = 2 then (0, 1, X)
      else if ⌊H / 60⌋ = 3 then (0, X, 1)
      else if ⌊H / 60⌋ = 4 then (X, 0, 1)
      else (1, 0, X)
    (truncToInt (sel.1 * 255), truncToInt (sel.2.1 * 255), truncToInt (sel.2.2 * 255))

lemma iteration_to_color_black {i : ℝ} {maxIter : ℕ} (h : (maxIter : ℝ) ≤ i) :
    iteration_to_color i maxIter = (0, 0, 0) := by
  simp [iteration_to_color, h]

lemma truncToInt_255 : truncToInt ((255 : ℝ)) = 255 := by
  rw [truncToInt_of_nonneg (by norm_num)]
  norm_num

/-- Whenever `i < maxIter` (every escaped point), some output channel is `255`,
so the color is never black. -/
lemma iteration_to_color_ne_black {i : ℝ} {maxIter : ℕ} (h : i < (maxIter : ℝ)) :
    iteration_to_color i maxIter ≠ (0, 0, 0) := by
  rw [iteration_to_color, if_neg (not_le.mpr h)]
  simp only []
  set hue := 360 * (i / (maxIter : ℝ)) with hhue
  have h255 : truncToInt (((1 : ℝ) + 0) * 255) = 255 := by
    rw [show ((1 : ℝ) + 0) * 255 = 255 by ring, truncToInt_255]
  by_cases c1 : hue < 60
  · rw [if_pos c1]
    intro hcon
    rw [Prod.ext_iff, Prod.ext_iff] at hcon
    simp only at hcon
    rw [h255] at hcon
    exact absurd hcon.1 (by norm_num)
  · rw [if_neg c1]
    by_cases c2 : hue < 120
    · rw [if_pos c2]
      intro hcon
      rw [Prod.ext_iff, Prod.ext_iff] at hcon
      simp only at hcon
      rw [h255] at hcon
      exact absurd hcon.2.1 (by norm_num)
    · rw [if_neg c2]
      by_cases c3 : hue < 180
      · rw [if_pos c3]
        intro hcon
        rw [Prod.ext_iff, Prod.ext_iff] at hcon
        simp only at hcon
        rw [h255] at hcon
        exact absurd hcon.2.1 (by norm_num)
      · rw [if_neg c3]
        by_cases c4 : hue < 240
        · rw [if_pos c4]
          intro hcon
          rw [Prod.ext_iff, Prod.ext_iff] at hcon
          simp only at hcon
          rw [h255] at hcon
          exact absurd hcon.2.2 (by norm_num)
        · rw [if_neg c4]
          by_cases c5 : hue < 300
          · rw [if_pos c5]
            intro hcon
            rw [Prod.ext_iff, Prod.ext_iff] at hcon
            simp only at hcon
            rw [h255] at hcon
            exact absurd hcon.2.2 (by norm_num)
          · rw [if_neg c5]
            intro hcon
            rw [Prod.ext_iff, Prod.ext_iff] at hcon
            simp only at hcon
            rw [h255] at hcon
            exact absurd hcon.1 (by norm_num)

/-- For nonnegative smooth counts the code's chained hue comparisons and
`fmod`-based `x` compute exactly the specification's sextant-by-`⌊H/60⌋`
HSV→RGB formula. -/
lemma iteration_to_color_eq_spec {i : ℝ} {maxIter : ℕ} (hi : 0 ≤ i) :
    iteration_to_color i maxIter = hsvSpecColor i maxIter := by
  by_cases hb : (maxIter : ℝ) ≤ i
  · simp [iteration_to_color, hsvSpecColor, hb]
  · push_neg at hb
    have hmi : 0 < (maxIter : ℝ) := lt_of_le_of_lt hi hb
    rw [iteration_to_color, if_neg (not_le.mpr hb), hsvSpecColor, if_neg (not_le.mpr hb)]
    simp only []
    set t := i / (maxIter : ℝ) with ht
    have ht0 : 0 ≤ t := div_nonneg hi hmi.le
    have ht1 : t < 1 := (div_lt_one hmi).mpr hb
    set H := 360 * t with hHdef
    have hH0 : 0 ≤ H := by
      rw [hHdef]; positivity
    have hH360 : H < 360 := by
      rw [hHdef]; nlinarith
    have hmod : fmodR (H / 60) 2 = H / 60 - 2 * (⌊H / 60 / 2⌋ : ℝ) := by
      rw [fmodR, truncToInt_of_nonneg (by positivity)]
    by_cases c1 : H < 60
    · have hf : ⌊H / 60⌋ = 0 := by
        rw [Int.floor_eq_iff]
        push_cast
        constructor
        · positivity
        · rw [div_lt_iff₀ (by norm_num : (0:ℝ) < 60)]; linarith
      rw [if_pos c1, hf]
      norm_num [hmod]
    · have hc1 : 60 ≤ H := not_lt.mp c1
      rw [if_neg c1]
      by_cases c2 : H < 120
      · have hf : ⌊H / 60⌋ = 1 := by
          rw [Int.floor_eq_iff]
          push_cast
          constructor
          · rw [le_div_iff₀ (by norm_num : (0:ℝ) < 60)]; linarith
          · rw [div_lt_iff₀ (by norm_num : (0:ℝ) < 60)]; linarith
        rw [if_pos c2, hf]
        norm_num [hmod]
      · have hc2 : 120 ≤ H := not_lt.mp c2
        rw [if_neg c2]
        by_cases c3 : H < 180
        · have hf : ⌊H / 60⌋ = 2 := by
            rw [Int.floor_eq_iff]
            push_cast
            constructor
            · rw [le_div_iff₀ (by norm_num : (0:ℝ) < 60)]; linarith
            · rw [div_lt_iff₀ (by norm_num : (0:ℝ) < 60)]; linarith
          rw [if_pos c3, hf]
          norm_num [hmod]
        · have hc3 : 180 ≤ H := not_lt.mp c3
          rw [if_neg c3]
          by_cases c4 : H < 240
          · have hf : ⌊H / 60⌋ = 3 := by
              rw [Int.floor_eq_iff]
              push_cast
              constructor
              · rw [le_div_iff₀ (by norm_num : (0:ℝ) < 60)]; linarith
              · rw [div_lt_iff₀ (by norm_num : (0:ℝ) < 60)]; linarith
            rw [if_pos c4, hf]
            norm_num [hmod]
          · have hc4 : 240 ≤ H := not_lt.mp c4
            rw [if_neg c4]
            by_cases c5 : H < 300
            · have hf : ⌊H / 60⌋ = 4 := by
                rw [Int.floor_eq_iff]
                push_cast
                constructor
                · rw [le_div_iff₀ (by norm_num : (0:ℝ) < 60)]; linarith
                · rw [div_lt_iff₀ (by norm_num : (0:ℝ) < 60)]; linarith
              rw [if_pos c5, hf]
              norm_num [hmod]
            · have hc5 : 300 ≤ H := not_lt.mp c5
              rw [if_neg c5]
              have hf : ⌊H / 60⌋ = 5 := by
                rw [Int.floor_eq_iff]
                push_cast
                constructor
                · rw [le_div_iff₀ (by norm_num : (0:ℝ) < 60)]; linarith
                · rw [div_lt_iff₀ (by norm_num : (0:ℝ) < 60)]; linarith
              rw [hf]
              norm_num [hmod]

/-- The compiled-in constant `#define CHUNK_SIZE 10`. -/
def CHUNK_SIZE : ℕ := 10

/-- `static inline double map_pixel_to_complex(int pixel, int dimension, double center, double scale)`:
`center + (pixel - dimension / 2) * scale`, with `dimension / 2` the C integer
division. -/
noncomputable def map_pixel_to_complex (pixel dimension : ℕ) (center scale : ℝ) : ℝ :=
  center + (((pixel : ℤ) - (dimension : ℤ) / 2 : ℤ) : ℝ) * scale

/-- Store an RGB triple at byte offset `idx` of a buffer (the three stores
`buffer[index + 0..2] = rgb[0..2]` of `iteration_to_color`'s caller). -/
def writeBytes (buf : ℕ → ℤ) (idx : ℕ) (rgb : ℤ × ℤ × ℤ) : ℕ → ℤ :=
  fun j =>
    if j = idx then rgb.1
    else if j = idx + 1 then rgb.2.1
    else if j = idx + 2 then rgb.2.2
    else buf j

/-- Select one channel of an RGB triple by its byte position. -/
def rgbByte (c : ℤ × ℤ × ℤ) : ℕ → ℤ
  | 0 => c.1
  | 1 => c.2.1
  | 2 => c.2.2
  | _ + 3 => 0

/-- The color of pixel `(x, y)` exactly as the body of `compute_rows`
computes it: `scale = 4.0 / (width * zoom)`, map both coordinates, run the
kernel, cast its `int` result back to `double`, and color it. -/
noncomputable def pixelColor (zoom centerX centerY : ℝ)
    (width height maxIter : ℕ) (x y : ℕ) : ℤ × ℤ × ℤ :=
  iteration_to_color
    ((mandelbrot (map_pixel_to_complex x width centerX (4 / ((width : ℝ) * zoom)))
        (map_pixel_to_complex y height centerY (4 / ((width : ℝ) * zoom))) maxIter : ℤ) : ℝ)
    maxIter

/-- The C function `compute_rows`: for `y` from `startY` to `endY` and `x`
from `0` to `width`, write the pixel's three color bytes at byte offset
`((y - startY) * width + x) * 3` of `buffer`. -/
noncomputable def compute_rows (zoom centerX centerY : ℝ)
    (startY endY width height maxIter : ℕ) (buffer : ℕ → ℤ) : ℕ → ℤ :=
  (List.range' startY (endY - startY)).foldl
    (fun b y =>
      (List.range width).foldl
        (fun b' x =>
          writeBytes b' (((y - startY) * width + x) * 3)
            (pixelColor zoom centerX centerY width height maxIter x y)) b)
    buffer

lemma writeBytes_lookup (buf : ℕ → ℤ) (idx : ℕ) (rgb : ℤ × ℤ × ℤ) (j : ℕ) :
    writeBytes buf idx rgb j =
      if idx ≤ j ∧ j < idx + 3 then rgbByte rgb (j - idx) else buf j := by
  unfold writeBytes
  by_cases h0 : j = idx
  · subst h0
    simp [rgbByte]
  · rw [if_neg h0]
    by_cases h1 : j = idx + 1
    · subst h1
      rw [if_pos rfl, if_pos (by omega)]
      have : idx + 1 - idx = 1 := by omega
      rw [this]
      rfl
    · rw [if_neg h1]
      by_cases h2 : j = idx + 2
      · subst h2
        rw [if_pos rfl, if_pos (by omega)]
        have : idx + 2 - idx = 2 := by omega
        rw [this]
        rfl
      · rw [if_neg h2, if_neg (by omega)]

/-- Looking up a byte after the inner (per-row) loop of `compute_rows`:
writes land in the contiguous block `[off*3, (off+n)*3)` and do not clobber
each other. -/
lemma foldl_write_range (colF : ℕ → ℤ × ℤ × ℤ) (off : ℕ) :
    ∀ (n : ℕ) (b : ℕ → ℤ) (j : ℕ),
      ((List.range n).foldl (fun b' x => writeBytes b' ((off + x) * 3) (colF x)) b) j =
        if off * 3 ≤ j ∧ j < (off + n) * 3
        then rgbByte (colF ((j - off * 3) / 3)) ((j - off * 3) % 3)
        else b j := by
  intro n
  induction n with
  | zero =>
      intro b j
      simp only [List.range_zero, List.foldl_nil]
      rw [if_neg (by omega)]
  | succ m ih =>
      intro b j
      rw [List.range_succ, List.foldl_append, List.foldl_cons, List.foldl_nil,
        writeBytes_lookup, ih]
      by_cases hin : (off + m) * 3 ≤ j ∧ j < (off + m) * 3 + 3
      · have h1 : off * 3 ≤ j ∧ j < (off + (m + 1)) * 3 := by omega
        rw [if_pos hin, if_pos h1]
        have hdiv : (j - off * 3) / 3 = m := by
          have he : j - off * 3 = 3 * m + (j - (off + m) * 3) := by omega
          rw [he, Nat.mul_add_div (by norm_num)]
          omega
        have hmod : (j - off * 3) % 3 = j - (off + m) * 3 := by
          have he : j - off * 3 = 3 * m + (j - (off + m) * 3) := by omega
          rw [he, Nat.mul_add_mod]
          omega
        rw [hdiv, hmod]
      · rw [if_neg hin]
        by_cases hlo : off * 3 ≤ j ∧ j < (off + m) * 3
        · have h1 : off * 3 ≤ j ∧ j < (off + (m + 1)) * 3 := by omega
          rw [if_pos hlo, if_pos h1]
        · have h1 : ¬ (off * 3 ≤ j ∧ j < (off + (m + 1)) * 3) := by omega
          rw [if_neg hlo, if_neg h1]

lemma block_div_mod {B r : ℕ} (m : ℕ) (hB : 0 < B) (hr : r < B) :
    (B * m + r) / B = m ∧ (B * m + r) % B = r := by
  constructor
  · rw [Nat.mul_add_div hB, Nat.div_eq_of_lt hr]
    omega
  · rw [Nat.mul_add_mod, Nat.mod_eq_of_lt hr]

lemma compute_rows_inner (zoom cX cY : ℝ) (startY width height maxIter y : ℕ)
    (b : ℕ → ℤ) (j : ℕ) :
    ((List.range width).foldl
        (fun b' x => writeBytes b' (((y - startY) * width + x) * 3)
          (pixelColor zoom cX cY width height maxIter x y)) b) j =
      if (y - startY) * width * 3 ≤ j ∧ j < ((y - startY) * width + width) * 3
      then rgbByte
        (pixelColor zoom cX cY width height maxIter ((j - (y - startY) * width * 3) / 3) y)
        ((j - (y - startY) * width * 3) % 3)
      else b j := by
  exact foldl_write_range (fun x => pixelColor zoom cX cY width height maxIter x y)
    ((y - startY) * width) width b j

/-- Looking up a byte after the outer (row) loop of `compute_rows`: row `r`'s
writes fill the block `[r * width * 3, (r+1) * width * 3)` and rows do not
clobber one another. -/
lemma compute_rows_lookup (zoom cX cY : ℝ) (startY width height maxIter : ℕ) :
    ∀ (rows : ℕ) (b : ℕ → ℤ) (j : ℕ),
      ((List.range' startY rows).foldl
          (fun b y =>
            (List.range width).foldl
              (fun b' x => writeBytes b' (((y - startY) * width + x) * 3)
                (pixelColor zoom cX cY width height maxIter x y)) b) b) j =
        if j < rows * (width * 3)
        then rgbByte
          (pixelColor zoom cX cY width height maxIter ((j % (width * 3)) / 3)
            (startY + j / (width * 3)))
          (j % 3)
        else b j := by
  intro rows
  induction rows with
  | zero =>
      intro b j
      simp only [List.range'_zero, List.foldl_nil]
      rw [if_neg (by omega)]
  | succ m ih =>
      intro b j
      rw [List.range'_concat, List.foldl_append, List.foldl_cons, List.foldl_nil,
        compute_rows_inner, ih]
      simp only [Nat.add_sub_cancel_left, one_mul]
      have e2 : m * (width * 3) = m * width * 3 := by ring
      have e3 : (m + 1) * (width * 3) = (m * width + width) * 3 := by ring
      by_cases hin : m * width * 3 ≤ j ∧ j < (m * width + width) * 3
      · have h1 : j < (m + 1) * (width * 3) := by omega
        rw [if_pos hin, if_pos h1]
        have hrem : j - m * width * 3 < width * 3 := by omega
        have hB : 0 < width * 3 := by omega
        have he : j = width * 3 * m + (j - m * width * 3) := by
          rw [show width * 3 * m = m * width * 3 by ring]
          omega
        have hdm := block_div_mod (B := width * 3) (r := j - m * width * 3) m hB hrem
        rw [← he] at hdm
        have hch : j % 3 = (j - m * width * 3) % 3 := by
          conv_lhs => rw [show j = 3 * (width * m) + (j - m * width * 3) by
            rw [show 3 * (width * m) = m * width * 3 by ring]; omega]
          rw [Nat.mul_add_mod]
        rw [hdm.1, hdm.2, hch]
      · rw [if_neg hin]
        by_cases hlo : j < m * (width * 3)
        · have h1 : j < (m + 1) * (width * 3) := by omega
          rw [if_pos hlo, if_pos h1]
        · have h1 : ¬ j < (m + 1) * (width * 3) := by omega
          rw [if_neg hlo, if_neg h1]

/-- The byte at local offset `j` of the `PixelBuffer` that `compute_rows`
produces for a chunk starting at `startY`: pixel `x = (j mod 3·width) / 3`,
row `startY + j / (3·width)`, channel `j mod 3`. -/
noncomputable def chunkByte (zoom cX cY : ℝ)
    (startY width height maxIter : ℕ) (j : ℕ) : ℤ :=
  rgbByte
    (pixelColor zoom cX cY width height maxIter ((j % (width * 3)) / 3)
      (startY + j / (width * 3)))
    (j % 3)

/-- Full characterization of `compute_rows`: every byte below
`(endY − startY) · width · 3` holds its pixel's color channel; all other
bytes of the buffer are untouched. -/
lemma compute_rows_eq (zoom cX cY : ℝ) (startY endY width height maxIter : ℕ)
    (buffer : ℕ → ℤ) (j : ℕ) :
    compute_rows zoom cX cY startY endY width height maxIter buffer j =
      if j < (endY - startY) * (width * 3)
      then chunkByte zoom cX cY startY width height maxIter j
      else buffer j := by
  rw [compute_rows, compute_rows_lookup, chunkByte]

/-! ### The master-worker dispatch protocol (lines 190-289 of the C file)

One frame's dispatch loop is modelled as a transition system.  The master
state carries the row cursor `nextRow`, the frame buffer, and each worker's
phase; `acount`, `rcount` and `wcount` are ghost counters recording how many
times each row was covered by an ASSIGN, how many times each row was covered
by a RESULT, and how many times each frame-buffer byte was written.  The
pixel bytes a worker computes for chunk `(s, n)` are abstracted as
`payload s n : ℕ → ℤ`; the real renderer is substituted at the end.  A
worker's RESULT header is the `(startY, chunkSize)` pair of the ASSIGN it is
answering - in the C code the worker echoes its own `startY`/`chunkSize`
variables back, which the `result` step models by reading the pair from the
worker's phase. -/

/-- Phase of one worker within a frame, as observable by the master. -/
inductive WPhase where
  | ready : WPhase
  | busy : ℕ → ℕ → WPhase
  | draining : WPhase
  | done : WPhase
deriving DecidableEq

/-- Master-side state of one frame's dispatch loop (`W` = number of workers,
i.e. world size minus one), with ghost counters. -/
structure MState (W : ℕ) where
  nextRow : ℕ
  buf : ℕ → ℤ
  phase : Fin W → WPhase
  acount : ℕ → ℕ
  rcount : ℕ → ℕ
  wcount : ℕ → ℕ

/-- The master's copy of a RESULT payload for chunk `(s, n)` into the frame
buffer at byte offset `3·width·s`
(`MPI_Recv(fullBuffer + 3 * width * resultStartY, 3 * width * resultSize, ...)`). -/
def recvChunk (width : ℕ) (payload : ℕ → ℕ → ℕ → ℤ) (s n : ℕ) (buf : ℕ → ℤ) : ℕ → ℤ :=
  fun j =>
    if 3 * width * s ≤ j ∧ j < 3 * width * s + 3 * width * n
    then payload s n (j - 3 * width * s)
    else buf j

/-- Increment a ghost counter on the interval `[lo, hi)`. -/
def bump (f : ℕ → ℕ) (lo hi : ℕ) : ℕ → ℕ :=
  fun r => if lo ≤ r ∧ r < hi then f r + 1 else f r

/-- One message-handling step of the master's dispatch loop.
`assign`/`sentinel` are the two replies to a REQ (tag 1); `result` receives a
RESULT (tag 3) and copies its payload; `done` receives a DONE (tag 4). -/
inductive Step (width height chunkSz : ℕ) (payload : ℕ → ℕ → ℕ → ℤ) {W : ℕ} :
    MState W → MState W → Prop where
  | assign (σ : MState W) (w : Fin W)
      (hw : σ.phase w = WPhase.ready) (hrow : σ.nextRow < height) :
      Step width height chunkSz payload σ
        { σ with
          nextRow := σ.nextRow + min chunkSz (height - σ.nextRow),
          phase := Function.update σ.phase w
            (WPhase.busy σ.nextRow (min chunkSz (height - σ.nextRow))),
          acount := bump σ.acount σ.nextRow
            (σ.nextRow + min chunkSz (height - σ.nextRow)) }
  | sentinel (σ : MState W) (w : Fin W)
      (hw : σ.phase w = WPhase.ready) (hrow : height ≤ σ.nextRow) :
      Step width height chunkSz payload σ
        { σ with phase := Function.update σ.phase w WPhase.draining }
  | result (σ : MState W) (w : Fin W) (s n : ℕ)
      (hw : σ.phase w = WPhase.busy s n) :
      Step width height chunkSz payload σ
        { σ with
          buf := recvChunk width payload s n σ.buf,
          phase := Function.update σ.phase w WPhase.ready,
          rcount := bump σ.rcount s (s + n),
          wcount := bump σ.wcount (3 * width * s) (3 * width * s + 3 * width * n) }
  | done (σ : MState W) (w : Fin W) (hw : σ.phase w = WPhase.draining) :
      Step width height chunkSz payload σ
        { σ with phase := Function.update σ.phase w WPhase.done }

/-- Reachability through the dispatch loop. -/
def Reach (width height chunkSz : ℕ) (payload : ℕ → ℕ → ℕ → ℤ) {W : ℕ}
    (σ σ' : MState W) : Prop :=
  Relation.ReflTransGen (Step width height chunkSz payload) σ σ'

/-- Frame-start state: `nextRow = 0`, every worker about to send its first
REQ, frame buffer holding arbitrary previous contents `buf0`. -/
def initState (W : ℕ) (buf0 : ℕ → ℤ) : MState W :=
  { nextRow := 0
    buf := buf0
    phase := fun _ => WPhase.ready
    acount := fun _ => 0
    rcount := fun _ => 0
    wcount := fun _ => 0 }

/-- The number of workers that have not yet sent DONE; the C variable
`activeWorkers` always holds this count, and the loop exits when it is 0. -/
def activeOf {W : ℕ} (σ : MState W) : ℕ :=
  (Finset.univ.filter (fun w => σ.phase w ≠ WPhase.done)).card

lemma activeOf_eq_zero_iff {W : ℕ} (σ : MState W) :
    activeOf σ = 0 ↔ ∀ w, σ.phase w = WPhase.done := by
  rw [activeOf, Finset.card_eq_zero, Finset.filter_eq_empty_iff]
  constructor
  · intro h w
    by_contra hne
    exact (h (Finset.mem_univ w)) hne
  · intro h w _
    simp [h w]

/-- Some row of the frame is covered by a chunk currently assigned to a
worker whose RESULT has not yet arrived. -/
def BusyIn {W : ℕ} (ph : Fin W → WPhase) (r : ℕ) : Prop :=
  ∃ w s n, ph w = WPhase.busy s n ∧ s ≤ r ∧ r < s + n

/-- The start of the canonical chunk containing row `r`: chunks are handed
out from row 0 in blocks of `chunkSz`, so starts are the multiples of
`chunkSz`. -/
def canonStart (chunkSz r : ℕ) : ℕ := chunkSz * (r / chunkSz)

/-- The byte any complete run leaves at frame-buffer offset `j`: the payload
byte of the canonical chunk containing `j`'s row. -/
def frameByte (width height chunkSz : ℕ) (payload : ℕ → ℕ → ℕ → ℤ) (j : ℕ) : ℤ :=
  payload (canonStart chunkSz (j / (3 * width)))
    (min chunkSz (height - canonStart chunkSz (j / (3 * width))))
    (j - 3 * width * canonStart chunkSz (j / (3 * width)))

lemma canonStart_eq {c s n r : ℕ} (hc : 0 < c) (hs : c ∣ s) (hn : n ≤ c)
    (h1 : s ≤ r) (h2 : r < s + n) : canonStart c r = s := by
  obtain ⟨a, rfl⟩ := hs
  have hdm := block_div_mod (B := c) (r := r - c * a) a hc (by omega)
  have he : c * a + (r - c * a) = r := by omega
  rw [he] at hdm
  rw [canonStart, hdm.1]

/-- Two aligned chunks that both cover row `r` have the same start. -/
lemma aligned_cover_unique {c s s' r : ℕ} (hc : 0 < c) (hs : c ∣ s) (hs' : c ∣ s')
    (h1 : s ≤ r) (h2 : r < s + c) (h1' : s' ≤ r) (h2' : r < s' + c) : s = s' := by
  have e1 : canonStart c r = s := canonStart_eq hc hs le_rfl h1 h2
  have e2 : canonStart c r = s' := canonStart_eq hc hs' le_rfl h1' h2'
  omega

/-- Byte `j` lies in the write range of chunk `(s, n)` exactly when `j`'s row
lies in `[s, s + n)`. -/
lemma row_mem_iff {width s n j : ℕ} (hw : 0 < width) :
    (3 * width * s ≤ j ∧ j < 3 * width * s + 3 * width * n) ↔
      (s ≤ j / (3 * width) ∧ j / (3 * width) < s + n) := by
  have hB : 0 < 3 * width := by omega
  rw [Nat.le_div_iff_mul_le hB, Nat.div_lt_iff_lt_mul hB]
  have e1 : s * (3 * width) = 3 * width * s := by ring
  have e2 : (s + n) * (3 * width) = 3 * width * s + 3 * width * n := by ring
  omega

lemma busyIn_update_iff {W : ℕ} (ph : Fin W → WPhase) (w : Fin W) (p : WPhase) (r : ℕ) :
    BusyIn (Function.update ph w p) r ↔
      ((∃ s n, p = WPhase.busy s n ∧ s ≤ r ∧ r < s + n) ∨
        (∃ v s n, v ≠ w ∧ ph v = WPhase.busy s n ∧ s ≤ r ∧ r < s + n)) := by
  constructor
  · rintro ⟨v, s, n, hv, h1, h2⟩
    by_cases hvw : v = w
    · subst hvw
      rw [Function.update_same] at hv
      exact Or.inl ⟨s, n, hv, h1, h2⟩
    · rw [Function.update_noteq hvw] at hv
      exact Or.inr ⟨v, s, n, hvw, hv, h1, h2⟩
  · rintro (⟨s, n, hp, h1, h2⟩ | ⟨v, s, n, hvw, hv, h1, h2⟩)
    · exact ⟨w, s, n, by rw [Function.update_same, hp], h1, h2⟩
    · exact ⟨v, s, n, by rw [Function.update_noteq hvw]; exact hv, h1, h2⟩

lemma busyIn_update_nonbusy {W : ℕ} {ph : Fin W → WPhase} {w : Fin W} {p : WPhase}
    (hp : ∀ s n, p ≠ WPhase.busy s n) (hph : ∀ s n, ph w ≠ WPhase.busy s n) (r : ℕ) :
    BusyIn (Function.update ph w p) r ↔ BusyIn ph r := by
  rw [busyIn_update_iff]
  constructor
  · rintro (⟨s, n, hps, _, _⟩ | ⟨v, s, n, hvw, hv, h1, h2⟩)
    · exact absurd hps (hp s n)
    · exact ⟨v, s, n, hv, h1, h2⟩
  · rintro ⟨v, s, n, hv, h1, h2⟩
    have hvw : v ≠ w := fun h => (hph s n) (h ▸ hv)
    exact Or.inr ⟨v, s, n, hvw, hv, h1, h2⟩

open Classical in
/-- The inductive invariant of the dispatch loop.  Chunks are aligned blocks
of `chunkSz` rows handed out left to right; rows below `nextRow` are either
pending in exactly one worker or already copied to the frame buffer with
their canonical payload; rows at or above `nextRow`, and all bytes outside
the frame, are untouched. -/
structure Inv (width height chunkSz : ℕ) (payload : ℕ → ℕ → ℕ → ℤ) (buf0 : ℕ → ℤ)
    {W : ℕ} (σ : MState W) : Prop where
  next_le : σ.nextRow ≤ height
  next_align : chunkSz ∣ σ.nextRow ∨ σ.nextRow = height
  chunk_align : ∀ w s n, σ.phase w = WPhase.busy s n →
      chunkSz ∣ s ∧ s < height ∧ n = min chunkSz (height - s) ∧ s + n ≤ σ.nextRow
  chunk_inj : ∀ w w' s n s' n', w ≠ w' → σ.phase w = WPhase.busy s n →
      σ.phase w' = WPhase.busy s' n' → s ≠ s'
  drain_row : ∀ w, σ.phase w = WPhase.draining ∨ σ.phase w = WPhase.done →
      height ≤ σ.nextRow
  buf_hi : ∀ j, 3 * width * height ≤ j → σ.buf j = buf0 j ∧ σ.wcount j = 0
  buf_pending : ∀ j, j < 3 * width * height →
      (σ.nextRow ≤ j / (3 * width) ∨ BusyIn σ.phase (j / (3 * width))) →
      σ.buf j = buf0 j ∧ σ.wcount j = 0
  buf_written : ∀ j, j < 3 * width * height →
      j / (3 * width) < σ.nextRow → ¬ BusyIn σ.phase (j / (3 * width)) →
      σ.buf j = frameByte width height chunkSz payload j ∧ σ.wcount j = 1
  acount_eq : ∀ r, σ.acount r = if r < σ.nextRow then 1 else 0
  rcount_eq : ∀ r, σ.rcount r = if r < σ.nextRow ∧ ¬ BusyIn σ.phase r then 1 else 0

lemma inv_init (width height chunkSz : ℕ) (payload : ℕ → ℕ → ℕ → ℤ)
    (buf0 : ℕ → ℤ) (W : ℕ) :
    Inv width height chunkSz payload buf0 (initState W buf0) := by
  refine
    { next_le := Nat.zero_le _
      next_align := Or.inl (dvd_zero _)
      chunk_align := ?_
      chunk_inj := ?_
      drain_row := ?_
      buf_hi := ?_
      buf_pending := ?_
      buf_written := ?_
      acount_eq := ?_
      rcount_eq := ?_ }
  · intro w s n hv
    exact absurd hv (by simp [initState])
  · intro w w' s n s' n' _ hv _
    exact absurd hv (by simp [initState])
  · intro w hv
    rcases hv with h | h <;> exact absurd h (by simp [initState])
  · intro j _
    exact ⟨rfl, rfl⟩
  · intro j _ _
    exact ⟨rfl, rfl⟩
  · intro j _ hlt _
    exact absurd hlt (by simp [initState])
  · intro r
    simp [initState]
  · intro r
    rw [if_neg]
    · rfl
    · intro h
      exact absurd h.1 (Nat.not_lt_zero r)

/-- Preservation: every dispatch-loop step maintains the invariant. -/
lemma inv_step {width height chunkSz : ℕ} {payload : ℕ → ℕ → ℕ → ℤ} {buf0 : ℕ → ℤ}
    {W : ℕ} {σ σ' : MState W} (hwid : 0 < width) (hc : 0 < chunkSz)
    (hinv : Inv width height chunkSz payload buf0 σ)
    (hstep : Step width height chunkSz payload σ σ') :
    Inv width height chunkSz payload buf0 σ' := by
  cases hstep with
  | assign w hw hrow =>
      have halign : chunkSz ∣ σ.nextRow := by
        rcases hinv.next_align with h | h
        · exact h
        · omega
      have hn0pos : 0 < min chunkSz (height - σ.nextRow) := by omega
      refine
        { next_le := ?_
          next_align := ?_
          chunk_align := ?_
          chunk_inj := ?_
          drain_row := ?_
          buf_hi := ?_
          buf_pending := ?_
          buf_written := ?_
          acount_eq := ?_
          rcount_eq := ?_ }
      · dsimp only
        have := hinv.next_le
        omega
      · dsimp only
        by_cases hch : height - σ.nextRow ≤ chunkSz
        · right
          omega
        · left
          have hmin : min chunkSz (height - σ.nextRow) = chunkSz := by omega
          rw [hmin]
          exact dvd_add halign dvd_rfl
      · intro v s n hv
        dsimp only at hv ⊢
        by_cases hvw : v = w
        · subst hvw
          rw [Function.update_same] at hv
          injection hv with e1 e2
          subst e1
          subst e2
          exact ⟨halign, hrow, rfl, le_rfl⟩
        · rw [Function.update_noteq hvw] at hv
          obtain ⟨d1, d2, d3, d4⟩ := hinv.chunk_align v s n hv
          exact ⟨d1, d2, d3, by omega⟩
      · intro v v' s n s' n' hne hv hv'
        dsimp only at hv hv'
        by_cases hvw : v = w
        · subst hvw
          rw [Function.update_same] at hv
          injection hv with e1 e2
          subst e1
          have hv'w : v' ≠ v := fun h => hne h.symm
          rw [Function.update_noteq hv'w] at hv'
          obtain ⟨d1, d2, d3, d4⟩ := hinv.chunk_align v' s' n' hv'
          have : 0 < n' := by omega
          omega
        · rw [Function.update_noteq hvw] at hv
          by_cases hv'w : v' = w
          · subst hv'w
            rw [Function.update_same] at hv'
            injection hv' with e1 e2
            subst e1
            obtain ⟨d1, d2, d3, d4⟩ := hinv.chunk_align v s n hv
            have : 0 < n := by omega
            omega
          · rw [Function.update_noteq hv'w] at hv'
            exact hinv.chunk_inj v v' s n s' n' hne hv hv'
      · intro v hv
        dsimp only at hv ⊢
        by_cases hvw : v = w
        · subst hvw
          rw [Function.update_same] at hv
          rcases hv with h | h <;> exact WPhase.noConfusion h
        · rw [Function.update_noteq hvw] at hv
          have := hinv.drain_row v hv
          omega
      · intro j hj
        dsimp only
        exact hinv.buf_hi j hj
      · intro j hj hcond
        dsimp only at hcond ⊢
        apply hinv.buf_pending j hj
        rcases hcond with h | h
        · left
          omega
        · rw [busyIn_update_iff] at h
          rcases h with ⟨s, n, hp, h1, h2⟩ | ⟨v, s, n, hvw, hv, h1, h2⟩
          · injection hp with e1 e2
            left
            omega
          · exact Or.inr ⟨v, s, n, hv, h1, h2⟩
      · intro j hj hlt hnb
        dsimp only at hlt hnb ⊢
        have hnb' : ¬ BusyIn σ.phase (j / (3 * width)) := by
          intro hb
          apply hnb
          obtain ⟨v, s, n, hv, h1, h2⟩ := hb
          have hvw : v ≠ w := by
            intro h
            subst h
            rw [hw] at hv
            exact WPhase.noConfusion hv
          rw [busyIn_update_iff]
          exact Or.inr ⟨v, s, n, hvw, hv, h1, h2⟩
        have hlt' : j / (3 * width) < σ.nextRow := by
          by_contra hge
          push_neg at hge
          apply hnb
          rw [busyIn_update_iff]
          exact Or.inl ⟨σ.nextRow, min chunkSz (height - σ.nextRow), rfl, hge, by omega⟩
        exact hinv.buf_written j hj hlt' hnb'
      · intro r
        dsimp only
        rw [bump]
        by_cases hr : σ.nextRow ≤ r ∧ r < σ.nextRow + min chunkSz (height - σ.nextRow)
        · rw [if_pos hr, hinv.acount_eq r, if_neg (by omega : ¬ r < σ.nextRow),
            if_pos (by omega : r < σ.nextRow + min chunkSz (height - σ.nextRow))]
        · rw [if_neg hr, hinv.acount_eq r]
          by_cases h2 : r < σ.nextRow
          · rw [if_pos h2, if_pos (by omega)]
          · rw [if_neg h2, if_neg (by omega)]
      · intro r
        dsimp only
        rw [hinv.rcount_eq r]
        by_cases hb : BusyIn σ.phase r
        · have hb' : BusyIn
              (Function.update σ.phase w
                (WPhase.busy σ.nextRow (min chunkSz (height - σ.nextRow)))) r := by
            obtain ⟨v, s, n, hv, h1, h2⟩ := hb
            have hvw : v ≠ w := by
              intro h
              subst h
              rw [hw] at hv
              exact WPhase.noConfusion hv
            rw [busyIn_update_iff]
            exact Or.inr ⟨v, s, n, hvw, hv, h1, h2⟩
          rw [if_neg (fun h => h.2 hb), if_neg (fun h => h.2 hb')]
        · by_cases hr : r < σ.nextRow
          · have hb' : ¬ BusyIn
                (Function.update σ.phase w
                  (WPhase.busy σ.nextRow (min chunkSz (height - σ.nextRow)))) r := by
              rw [busyIn_update_iff]
              rintro (⟨s, n, hp, h1, h2⟩ | ⟨v, s, n, hvw, hv, h1, h2⟩)
              · injection hp with e1 e2
                omega
              · exact hb ⟨v, s, n, hv, h1, h2⟩
            rw [if_pos ⟨hr, hb⟩, if_pos ⟨by omega, hb'⟩]
          · rw [if_neg (fun h => hr h.1)]
            by_cases hr2 : r < σ.nextRow + min chunkSz (height - σ.nextRow)
            · have hb' : BusyIn
                  (Function.update σ.phase w
                    (WPhase.busy σ.nextRow (min chunkSz (height - σ.nextRow)))) r := by
                rw [busyIn_update_iff]
                exact Or.inl ⟨σ.nextRow, min chunkSz (height - σ.nextRow), rfl, by omega, hr2⟩
              rw [if_neg (fun h => h.2 hb')]
            · rw [if_neg (fun h => hr2 h.1)]
  | sentinel w hw hrow =>
      have hbusy : ∀ r, BusyIn (Function.update σ.phase w WPhase.draining) r ↔
          BusyIn σ.phase r := by
        intro r
        refine busyIn_update_nonbusy (fun s n h => WPhase.noConfusion h) ?_ r
        intro s n h
        rw [hw] at h
        exact WPhase.noConfusion h
      refine
        { next_le := hinv.next_le
          next_align := hinv.next_align
          chunk_align := ?_
          chunk_inj := ?_
          drain_row := ?_
          buf_hi := hinv.buf_hi
          buf_pending := ?_
          buf_written := ?_
          acount_eq := hinv.acount_eq
          rcount_eq := ?_ }
      · intro v s n hv
        dsimp only at hv ⊢
        by_cases hvw : v = w
        · subst hvw
          rw [Function.update_same] at hv
          exact WPhase.noConfusion hv
        · rw [Function.update_noteq hvw] at hv
          exact hinv.chunk_align v s n hv
      · intro v v' s n s' n' hne hv hv'
        dsimp only at hv hv'
        by_cases hvw : v = w
        · subst hvw
          rw [Function.update_same] at hv
          exact WPhase.noConfusion hv
        · rw [Function.update_noteq hvw] at hv
          by_cases hv'w : v' = w
          · subst hv'w
            rw [Function.update_same] at hv'
            exact WPhase.noConfusion hv'
          · rw [Function.update_noteq hv'w] at hv'
            exact hinv.chunk_inj v v' s n s' n' hne hv hv'
      · intro v hv
        dsimp only at hv ⊢
        by_cases hvw : v = w
        · exact hrow
        · rw [Function.update_noteq hvw] at hv
          exact hinv.drain_row v hv
      · intro j hj hcond
        dsimp only at hcond ⊢
        apply hinv.buf_pending j hj
        rcases hcond with h | h
        · exact Or.inl h
        · exact Or.inr ((hbusy _).mp h)
      · intro j hj hlt hnb
        dsimp only at hlt hnb ⊢
        exact hinv.buf_written j hj hlt (fun hb => hnb ((hbusy _).mpr hb))
      · intro r
        dsimp only
        rw [hinv.rcount_eq r]
        by_cases hcond : r < σ.nextRow ∧ ¬ BusyIn σ.phase r
        · rw [if_pos hcond, if_pos ⟨hcond.1, fun hb => hcond.2 ((hbusy r).mp hb)⟩]
        · rw [if_neg hcond, if_neg (fun h => hcond ⟨h.1, fun hb => h.2 ((hbusy r).mpr hb)⟩)]
  | result w s n hw =>
      obtain ⟨hdvd, hsh, hnmin, hsn⟩ := hinv.chunk_align w s n hw
      have hnpos : 0 < n := by omega
      have hnc : n ≤ chunkSz := by omega
      have hF1 : ∀ r, s ≤ r → r < s + n →
          ¬ BusyIn (Function.update σ.phase w WPhase.ready) r := by
        intro r h1 h2
        rw [busyIn_update_iff]
        rintro (⟨s', n', hp, _, _⟩ | ⟨v, s', n', hvw, hv, h1', h2'⟩)
        · exact WPhase.noConfusion hp
        · obtain ⟨hdvd', hsh', hnmin', _⟩ := hinv.chunk_align v s' n' hv
          have hn'c : n' ≤ chunkSz := by omega
          have heq : s' = s := aligned_cover_unique hc hdvd' hdvd h1' (by omega) h1 (by omega)
          exact hinv.chunk_inj v w s' n' s n hvw hv hw heq
      have hF2 : ∀ r, ¬ (s ≤ r ∧ r < s + n) →
          (BusyIn (Function.update σ.phase w WPhase.ready) r ↔ BusyIn σ.phase r) := by
        intro r hr
        rw [busyIn_update_iff]
        constructor
        · rintro (⟨s', n', hp, _, _⟩ | ⟨v, s', n', hvw, hv, h1', h2'⟩)
          · exact WPhase.noConfusion hp
          · exact ⟨v, s', n', hv, h1', h2'⟩
        · rintro ⟨v, s', n', hv, h1', h2'⟩
          have hvw : v ≠ w := by
            intro h
            subst h
            rw [hw] at hv
            injection hv with e1 e2
            subst e1
            subst e2
            exact hr ⟨h1', h2'⟩
          exact Or.inr ⟨v, s', n', hvw, hv, h1', h2'⟩
      have hrange : ∀ j, (3 * width * s ≤ j ∧ j < 3 * width * s + 3 * width * n) ↔
          (s ≤ j / (3 * width) ∧ j / (3 * width) < s + n) := fun j => row_mem_iff hwid
      refine
        { next_le := hinv.next_le
          next_align := hinv.next_align
          chunk_align := ?_
          chunk_inj := ?_
          drain_row := ?_
          buf_hi := ?_
          buf_pending := ?_
          buf_written := ?_
          acount_eq := hinv.acount_eq
          rcount_eq := ?_ }
      · intro v s' n' hv
        dsimp only at hv ⊢
        by_cases hvw : v = w
        · subst hvw
          rw [Function.update_same] at hv
          exact WPhase.noConfusion hv
        · rw [Function.update_noteq hvw] at hv
          exact hinv.chunk_align v s' n' hv
      · intro v v' s1 n1 s1' n1' hne hv hv'
        dsimp only at hv hv'
        by_cases hvw : v = w
        · subst hvw
          rw [Function.update_same] at hv
          exact WPhase.noConfusion hv
        · rw [Function.update_noteq hvw] at hv
          by_cases hv'w : v' = w
          · subst hv'w
            rw [Function.update_same] at hv'
            exact WPhase.noConfusion hv'
          · rw [Function.update_noteq hv'w] at hv'
            exact hinv.chunk_inj v v' s1 n1 s1' n1' hne hv hv'
      · intro v hv
        dsimp only at hv ⊢
        by_cases hvw : v = w
        · subst hvw
          rw [Function.update_same] at hv
          rcases hv with h | h <;> exact WPhase.noConfusion h
        · rw [Function.update_noteq hvw] at hv
          exact hinv.drain_row v hv
      · intro j hj
        dsimp only
        have hout : ¬ (3 * width * s ≤ j ∧ j < 3 * width * s + 3 * width * n) := by
          have hse : s + n ≤ height := by
            have := hinv.next_le
            omega
          have : 3 * width * (s + n) ≤ 3 * width * height :=
            Nat.mul_le_mul_left (3 * width) hse
          have e : 3 * width * (s + n) = 3 * width * s + 3 * width * n := by ring
          omega
        rw [recvChunk, if_neg hout, bump, if_neg hout]
        exact hinv.buf_hi j hj
      · intro j hj hcond
        dsimp only at hcond ⊢
        by_cases hrj : s ≤ j / (3 * width) ∧ j / (3 * width) < s + n
        · exfalso
          rcases hcond with h | h
          · omega
          · exact hF1 _ hrj.1 hrj.2 h
        · have hout : ¬ (3 * width * s ≤ j ∧ j < 3 * width * s + 3 * width * n) := by
            rw [hrange j]
            exact hrj
          rw [recvChunk, if_neg hout, bump, if_neg hout]
          apply hinv.buf_pending j hj
          rcases hcond with h | h
          · exact Or.inl h
          · exact Or.inr ((hF2 _ hrj).mp h)
      · intro j hj hlt hnb
        dsimp only at hlt hnb ⊢
        by_cases hrj : s ≤ j / (3 * width) ∧ j / (3 * width) < s + n
        · have hin : 3 * width * s ≤ j ∧ j < 3 * width * s + 3 * width * n := by
            rw [hrange j]
            exact hrj
          rw [recvChunk, if_pos hin, bump, if_pos hin]
          have hbusyold : BusyIn σ.phase (j / (3 * width)) := ⟨w, s, n, hw, hrj.1, hrj.2⟩
          obtain ⟨_, hw0⟩ := hinv.buf_pending j hj (Or.inr hbusyold)
          constructor
          · have hcs : canonStart chunkSz (j / (3 * width)) = s :=
              canonStart_eq hc hdvd hnc hrj.1 hrj.2
            rw [frameByte, hcs, ← hnmin]
          · omega
        · have hout : ¬ (3 * width * s ≤ j ∧ j < 3 * width * s + 3 * width * n) := by
            rw [hrange j]
            exact hrj
          rw [recvChunk, if_neg hout, bump, if_neg hout]
          exact hinv.buf_written j hj hlt (fun hb => hnb ((hF2 _ hrj).mpr hb))
      · intro r
        dsimp only
        rw [bump]
        by_cases hr : s ≤ r ∧ r < s + n
        · rw [if_pos hr, hinv.rcount_eq r,
            if_neg (fun h => h.2 ⟨w, s, n, hw, hr.1, hr.2⟩),
            if_pos ⟨by omega, hF1 r hr.1 hr.2⟩]
        · rw [if_neg hr, hinv.rcount_eq r]
          by_cases hcond : r < σ.nextRow ∧ ¬ BusyIn σ.phase r
          · rw [if_pos hcond, if_pos ⟨hcond.1, fun hb => hcond.2 ((hF2 r hr).mp hb)⟩]
          · rw [if_neg hcond, if_neg (fun h => hcond ⟨h.1, fun hb => h.2 ((hF2 r hr).mpr hb)⟩)]
  | done w hw =>
      have hbusy : ∀ r, BusyIn (Function.update σ.phase w WPhase.done) r ↔
          BusyIn σ.phase r := by
        intro r
        refine busyIn_update_nonbusy (fun s n h => WPhase.noConfusion h) ?_ r
        intro s n h
        rw [hw] at h
        exact WPhase.noConfusion h
      refine
        { next_le := hinv.next_le
          next_align := hinv.next_align
          chunk_align := ?_
          chunk_inj := ?_
          drain_row := ?_
          buf_hi := hinv.buf_hi
          buf_pending := ?_
          buf_written := ?_
          acount_eq := hinv.acount_eq
          rcount_eq := ?_ }
      · intro v s n hv
        dsimp only at hv ⊢
        by_cases hvw : v = w
        · subst hvw
          rw [Function.update_same] at hv
          exact WPhase.noConfusion hv
        · rw [Function.update_noteq hvw] at hv
          exact hinv.chunk_align v s n hv
      · intro v v' s n s' n' hne hv hv'
        dsimp only at hv hv'
        by_cases hvw : v = w
        · subst hvw
          rw [Function.update_same] at hv
          exact WPhase.noConfusion hv
        · rw [Function.update_noteq hvw] at hv
          by_cases hv'w : v' = w
          · subst hv'w
            rw [Function.update_same] at hv'
            exact WPhase.noConfusion hv'
          · rw [Function.update_noteq hv'w] at hv'
            exact hinv.chunk_inj v v' s n s' n' hne hv hv'
      · intro v hv
        dsimp only at hv ⊢
        by_cases hvw : v = w
        · exact hinv.drain_row w (Or.inl hw)
        · rw [Function.update_noteq hvw] at hv
          exact hinv.drain_row v hv
      · intro j hj hcond
        dsimp only at hcond ⊢
        apply hinv.buf_pending j hj
        rcases hcond with h | h
        · exact Or.inl h
        · exact Or.inr ((hbusy _).mp h)
      · intro j hj hlt hnb
        dsimp only at hlt hnb ⊢
        exact hinv.buf_written j hj hlt (fun hb => hnb ((hbusy _).mpr hb))
      · intro r
        dsimp only
        rw [hinv.rcount_eq r]
        by_cases hcond : r < σ.nextRow ∧ ¬ BusyIn σ.phase r
        · rw [if_pos hcond, if_pos ⟨hcond.1, fun hb => hcond.2 ((hbusy r).mp hb)⟩]
        · rw [if_neg hcond, if_neg (fun h => hcond ⟨h.1, fun hb => h.2 ((hbusy r).mpr hb)⟩)]

lemma inv_reach {width height chunkSz : ℕ} {payload : ℕ → ℕ → ℕ → ℤ} {buf0 : ℕ → ℤ}
    {W : ℕ} (hwid : 0 < width) (hc : 0 < chunkSz) {σ : MState W}
    (h : Reach width height chunkSz payload (initState W buf0) σ) :
    Inv width height chunkSz payload buf0 σ := by
  induction h with
  | refl => exact inv_init width height chunkSz payload buf0 W
  | tail hab hbc ih => exact inv_step hwid hc ih hbc

/-- Complete runs (every worker has sent DONE) fill the whole frame buffer
with the canonical payload bytes, leave everything else untouched, and have
assigned and received every row exactly once. -/
lemma final_state {width height chunkSz : ℕ} {payload : ℕ → ℕ → ℕ → ℤ} {buf0 : ℕ → ℤ}
    {W : ℕ} (hwid : 0 < width) (hc : 0 < chunkSz) (hW : 0 < W) {σ : MState W}
    (hreach : Reach width height chunkSz payload (initState W buf0) σ)
    (hfin : activeOf σ = 0) :
    σ.nextRow = height ∧
    (∀ j, j < 3 * width * height →
      σ.buf j = frameByte width height chunkSz payload j ∧ σ.wcount j = 1) ∧
    (∀ j, 3 * width * height ≤ j → σ.buf j = buf0 j ∧ σ.wcount j = 0) ∧
    (∀ r, r < height → σ.acount r = 1 ∧ σ.rcount r = 1) ∧
    (∀ r, height ≤ r → σ.acount r = 0 ∧ σ.rcount r = 0) := by
  have hinv := inv_reach hwid hc hreach
  have hall := (activeOf_eq_zero_iff σ).mp hfin
  have hnb : ∀ r, ¬ BusyIn σ.phase r := by
    rintro r ⟨v, s, n, hv, _, _⟩
    rw [hall v] at hv
    exact WPhase.noConfusion hv
  have hnr : σ.nextRow = height := by
    have h1 := hinv.drain_row ⟨0, hW⟩ (Or.inr (hall ⟨0, hW⟩))
    have h2 := hinv.next_le
    omega
  refine ⟨hnr, ?_, hinv.buf_hi, ?_, ?_⟩
  · intro j hj
    have hrow : j / (3 * width) < height := by
      have hB : 0 < 3 * width := by omega
      rw [Nat.div_lt_iff_lt_mul hB]
      have e : height * (3 * width) = 3 * width * height := by ring
      omega
    exact hinv.buf_written j hj (by omega) (hnb _)
  · intro r hr
    refine ⟨?_, ?_⟩
    · rw [hinv.acount_eq r, if_pos (by omega)]
    · rw [hinv.rcount_eq r, if_pos ⟨by omega, hnb r⟩]
  · intro r hr
    refine ⟨?_, ?_⟩
    · rw [hinv.acount_eq r, if_neg (by omega)]
    · rw [hinv.rcount_eq r, if_neg (fun h => absurd h.1 (by omega))]

/-- With a world size of 1 there are no workers: no step of the dispatch
loop is possible at all, so the loop body never runs. -/
lemma reach_zero_workers {width height chunkSz : ℕ} {payload : ℕ → ℕ → ℕ → ℤ}
    {buf0 : ℕ → ℤ} {σ : MState 0}
    (h : Reach width height chunkSz payload (initState 0 buf0) σ) :
    σ = initState 0 buf0 := by
  induction h with
  | refl => rfl
  | tail hab hbc ih =>
      cases hbc with
      | assign w hw hrow => exact w.elim0
      | sentinel w hw hrow => exact w.elim0
      | result w s n hw => exact w.elim0
      | done w hw => exact w.elim0

/-- The payload a worker sends back for chunk `(s, n)`: the `PixelBuffer`
produced by `compute_rows` into its freshly allocated local buffer (modelled
zero-initialized; `compute_rows` overwrites every byte that is sent). -/
noncomputable def chunkPayload (zoom cX cY : ℝ) (width height maxIter : ℕ)
    (s n : ℕ) : ℕ → ℤ :=
  compute_rows zoom cX cY s (s + n) width height maxIter (fun _ => 0)

lemma chunkPayload_cex : chunkPayload 1 0 0 1 1 1 0 1 0 = 0 := by
  rw [chunkPayload, compute_rows_eq, if_pos (by norm_num), chunkByte]
  norm_num
  rw [pixelColor]
  push_cast
  have hmap : map_pixel_to_complex 0 1 0 (4 / ((1 : ℝ) * 1)) = 0 := by
    rw [map_pixel_to_complex]
    norm_num
  rw [hmap, mandelbrot_zero, iteration_to_color_black (by push_cast; norm_num)]
  rfl

/-- An explicit complete run with one worker on a 1×1 frame: ASSIGN row 0,
RESULT, sentinel, DONE. -/
lemma cex_run1 :
    ∃ σ : MState 1,
      Reach 1 1 CHUNK_SIZE (chunkPayload 1 0 0 1 1 1) (initState 1 (fun _ => 1)) σ ∧
      activeOf σ = 0 ∧ σ.buf 0 = chunkPayload 1 0 0 1 1 1 0 1 0 := by
  refine ⟨_,
    Relation.ReflTransGen.tail
      (Relation.ReflTransGen.tail
        (Relation.ReflTransGen.tail
          (Relation.ReflTransGen.single
            (Step.assign (initState 1 (fun _ => 1)) ⟨0, Nat.zero_lt_one⟩ rfl
              (by norm_num [initState])))
          (Step.result _ ⟨0, Nat.zero_lt_one⟩ 0 (min CHUNK_SIZE (1 - 0))
            (by simp [initState])))
        (Step.sentinel _ ⟨0, Nat.zero_lt_one⟩ (by simp [initState])
          (by norm_num [initState, CHUNK_SIZE])))
      (Step.done _ ⟨0, Nat.zero_lt_one⟩ (by simp [initState])), ?_, ?_⟩
  · rw [activeOf_eq_zero_iff]
    intro w
    have hw : w = ⟨0, Nat.zero_lt_one⟩ := by
      apply Fin.ext
      omega
    subst hw
    simp
  · show recvChunk 1 (chunkPayload 1 0 0 1 1 1) 0 (min CHUNK_SIZE (1 - 0))
      (initState 1 (fun _ => 1)).buf 0 = chunkPayload 1 0 0 1 1 1 0 1 0
    rw [recvChunk, if_pos (by norm_num [CHUNK_SIZE])]
    norm_num [CHUNK_SIZE]

/-! ### The outer input loop (lines 160-300 of the C file)

The master reads lines from stdin; `fgets` failure (end of stream) and
`sscanf` failure (malformed line) both set `zoom = -1`, the latter after
printing a diagnostic; the zoom is broadcast and a nonpositive zoom ends the
run for every process, after which each process returns 0.  The stream is
modelled as the list of per-line parse outcomes; parsed numbers are modelled
as rationals. -/

/-- One line of the master's input stream after the `fgets`/`sscanf` step. -/
inductive InLine where
  | bad : InLine
  | good : ℚ → ℚ → ℚ → InLine

/-- Project the view out of a parsed line. -/
def viewOf : InLine → Option (ℚ × ℚ × ℚ)
  | InLine.bad => none
  | InLine.good z cx cy => some (z, cx, cy)

/-- The master's outer loop: returns the list of views actually rendered,
whether the malformed-line diagnostic was printed, and the exit code. -/
def runMaster : List InLine → List (ℚ × ℚ × ℚ) × Bool × ℕ
  | [] => ([], false, 0)
  | InLine.bad :: _ => ([], true, 0)
  | InLine.good z cx cy :: rest =>
      if z ≤ 0 then ([], false, 0)
      else
        let r := runMaster rest
        ((z, cx, cy) :: r.1, r.2.1, r.2.2)

/-- The sequence of zoom values the master broadcasts: one per iteration,
ending with the first nonpositive one (`-1` on EOF or parse failure). -/
def broadcasts : List InLine → List ℚ
  | [] => [-1]
  | InLine.bad :: _ => [-1]
  | InLine.good z _ _ :: rest => if z ≤ 0 then [z] else z :: broadcasts rest

/-- A worker's outer loop, seen through the broadcasts it receives: it exits
as soon as a nonpositive zoom arrives.  `true` means the worker exited. -/
def workerRun : List ℚ → Bool
  | [] => false
  | z :: rest => if z ≤ 0 then true else workerRun rest

lemma runMaster_exit_zero : ∀ stream : List InLine, (runMaster stream).2.2 = 0 := by
  intro stream
  induction stream with
  | nil => rfl
  | cons l rest ih =>
      cases l with
      | bad => rfl
      | good z cx cy =>
          rw [runMaster]
          by_cases hz : z ≤ 0
          · rw [if_pos hz]
          · rw [if_neg hz]
            exact ih

lemma broadcasts_end_nonpos : ∀ stream : List InLine, workerRun (broadcasts stream) = true := by
  intro stream
  induction stream with
  | nil => rfl
  | cons l rest ih =>
      cases l with
      | bad => rfl
      | good z cx cy =>
          rw [broadcasts]
          by_cases hz : z ≤ 0
          · rw [if_pos hz]
            simp [workerRun, hz]
          · rw [if_neg hz]
            simp only [workerRun, if_neg hz]
            exact ih

lemma runMaster_bad (pre post : List InLine)
    (hpre : ∀ l ∈ pre, ∃ z cx cy, l = InLine.good z cx cy ∧ 0 < z) :
    runMaster (pre ++ InLine.bad :: post) = (pre.filterMap viewOf, true, 0) := by
  induction pre with
  | nil => rfl
  | cons l rest ih =>
      obtain ⟨z, cx, cy, rfl, hz⟩ := hpre l (List.mem_cons_self l rest)
      have hrest := ih (fun l hl => hpre l (List.mem_cons_of_mem _ hl))
      simp only [List.cons_append, runMaster, if_neg (not_le.mpr hz),
        List.filterMap_cons, viewOf]
      rw [show rest.append (InLine.bad :: post) = rest ++ InLine.bad :: post from rfl, hrest]

/-! ### Claim theorems -/

/-- Claim C1, counterexample to the claim as stated (worker counts
`N₁, N₂ ≥ 1`): a world size of 1 has zero workers, so the dispatch loop body
never runs and the master emits the untouched previous buffer contents.  On a
1×1 frame with view `(1, 0, 0)` and `maxIter = 1`, the zero-worker complete
run keeps byte 0 equal to `1`, while a one-worker complete run writes `0`. -/
theorem c1_counterexample :
    ∃ σ0 : MState 0, ∃ σ1 : MState 1,
      Reach 1 1 CHUNK_SIZE (chunkPayload 1 0 0 1 1 1) (initState 0 (fun _ => 1)) σ0 ∧
      activeOf σ0 = 0 ∧
      Reach 1 1 CHUNK_SIZE (chunkPayload 1 0 0 1 1 1) (initState 1 (fun _ => 1)) σ1 ∧
      activeOf σ1 = 0 ∧
      (0 : ℕ) < 3 * 1 * 1 ∧ σ0.buf 0 ≠ σ1.buf 0 := by
  obtain ⟨σ1, hr, hf, hb⟩ := cex_run1
  refine ⟨initState 0 (fun _ => 1), σ1, Relation.ReflTransGen.refl, ?_, hr, hf,
    by norm_num, ?_⟩
  · rw [activeOf_eq_zero_iff]
    intro w
    exact w.elim0
  · rw [hb, chunkPayload_cex]
    show (1 : ℤ) ≠ 0
    norm_num

/-- Claim C1, amended to world sizes of at least 2 (at least one worker on
each side): for every view with `zoom > 0` and fixed configuration, any two
complete dispatch runs - whatever the worker counts, REQ interleavings and
RESULT arrival orders - leave identical bytes throughout the
`3·width·height` frame buffer, because every RESULT is written at byte
offset `3·width·startY` taken from its own header. -/
theorem c1_determinism {zoom cX cY : ℝ} (_hz : 0 < zoom) {width height maxIter : ℕ}
    (hw : 0 < width) {W1 W2 : ℕ} (h1 : 0 < W1) (h2 : 0 < W2)
    (buf1 buf2 : ℕ → ℤ) {σ1 : MState W1} {σ2 : MState W2}
    (r1 : Reach width height CHUNK_SIZE (chunkPayload zoom cX cY width height maxIter)
      (initState W1 buf1) σ1)
    (f1 : activeOf σ1 = 0)
    (r2 : Reach width height CHUNK_SIZE (chunkPayload zoom cX cY width height maxIter)
      (initState W2 buf2) σ2)
    (f2 : activeOf σ2 = 0) :
    ∀ j, j < 3 * width * height → σ1.buf j = σ2.buf j := by
  intro j hj
  have hc : 0 < CHUNK_SIZE := by norm_num [CHUNK_SIZE]
  obtain ⟨-, hb1, -⟩ := final_state hw hc h1 r1 f1
  obtain ⟨-, hb2, -⟩ := final_state hw hc h2 r2 f2
  rw [(hb1 j hj).1, (hb2 j hj).1]

/-- Witness for C1's amended theorem at a concrete pair of complete runs. -/
theorem c1_witness :
    ∃ σ1 : MState 1, ∃ σ2 : MState 1,
      Reach 1 1 CHUNK_SIZE (chunkPayload 1 0 0 1 1 1) (initState 1 (fun _ => 1)) σ1 ∧
      activeOf σ1 = 0 ∧
      Reach 1 1 CHUNK_SIZE (chunkPayload 1 0 0 1 1 1) (initState 1 (fun _ => 1)) σ2 ∧
      activeOf σ2 = 0 ∧
      ∀ j, j < 3 * 1 * 1 → σ1.buf j = σ2.buf j := by
  obtain ⟨σ, hr, hf, -⟩ := cex_run1
  exact ⟨σ, σ, hr, hf, hr, hf,
    c1_determinism (by norm_num) (by norm_num) Nat.one_pos Nat.one_pos
      (fun _ => 1) (fun _ => 1) hr hf hr hf⟩

/-- Claim C2, counterexample to the claim as stated (worker counts `N ≥ 1`):
with world size 1 there are zero workers, the dispatch loop exits at once,
and for a 1×1 frame (whose buffer has `3·1·1 > 0` bytes) no ASSIGN covers row
0 and byte 0 is written zero times, not once. -/
theorem c2_counterexample :
    Reach 1 1 CHUNK_SIZE (chunkPayload 1 0 0 1 1 1) (initState 0 (fun _ => 0))
      (initState 0 (fun _ => 0)) ∧
    activeOf (initState 0 (fun _ => (0:ℤ))) = 0 ∧
    (0 : ℕ) < 3 * 1 * 1 ∧
    (initState 0 (fun _ => (0:ℤ))).acount 0 = 0 ∧
    (initState 0 (fun _ => (0:ℤ))).wcount 0 ≠ 1 := by
  refine ⟨Relation.ReflTransGen.refl, ?_, by norm_num, rfl, by intro h; exact absurd h (by norm_num [initState])⟩
  rw [activeOf_eq_zero_iff]
  intro w
  exact w.elim0

/-- Claim C2, amended to world sizes of at least 2 (at least one worker):
for every view with `zoom > 0`, a complete per-frame run of the dispatch
loop covers every row in `[0, height)` by exactly one ASSIGN (the reply to a
REQ being `(nextRow, min(CHUNK_SIZE, height − nextRow))` if `nextRow <
height` and the sentinel otherwise, as the `Step` relation states), rows
outside the frame are never assigned, every assigned row is answered by
exactly one RESULT, and every byte of the `3·width·height` frame buffer is
written exactly once (bytes outside it never). -/
theorem c2_coverage {zoom cX cY : ℝ} (_hz : 0 < zoom) {width height maxIter : ℕ}
    (hw : 0 < width) {W : ℕ} (hW : 0 < W) (buf0 : ℕ → ℤ) {σ : MState W}
    (hr : Reach width height CHUNK_SIZE (chunkPayload zoom cX cY width height maxIter)
      (initState W buf0) σ)
    (hf : activeOf σ = 0) :
    (∀ r, r < height → σ.acount r = 1) ∧
    (∀ r, height ≤ r → σ.acount r = 0) ∧
    (∀ r, r < height → σ.rcount r = 1) ∧
    (∀ j, j < 3 * width * height → σ.wcount j = 1) ∧
    (∀ j, 3 * width * height ≤ j → σ.wcount j = 0) := by
  have hc : 0 < CHUNK_SIZE := by norm_num [CHUNK_SIZE]
  obtain ⟨hnr, hb, hhi, hrow, hrow'⟩ := final_state hw hc hW hr hf
  exact ⟨fun r h => (hrow r h).1, fun r h => (hrow' r h).1, fun r h => (hrow r h).2,
    fun j h => (hb j h).2, fun j h => (hhi j h).2⟩

/-- Witness for C2's amended theorem at a concrete complete run. -/
theorem c2_witness :
    ∃ σ : MState 1,
      Reach 1 1 CHUNK_SIZE (chunkPayload 1 0 0 1 1 1) (initState 1 (fun _ => 1)) σ ∧
      activeOf σ = 0 ∧
      ((∀ r, r < 1 → σ.acount r = 1) ∧
        (∀ r, 1 ≤ r → σ.acount r = 0) ∧
        (∀ r, r < 1 → σ.rcount r = 1) ∧
        (∀ j, j < 3 * 1 * 1 → σ.wcount j = 1) ∧
        (∀ j, 3 * 1 * 1 ≤ j → σ.wcount j = 0)) := by
  obtain ⟨σ, hr, hf, -⟩ := cex_run1
  exact ⟨σ, hr, hf,
    c2_coverage (by norm_num) (by norm_num) Nat.one_pos (fun _ => 1) hr hf⟩

/-- Claim C4 (the code at the failing input): the specification says that
with world size 1 the master renders the whole frame itself, but the code
has no such path - `activeWorkers` starts at 0, the dispatch loop body never
executes, no step is even possible, and the emitted frame buffer is the
untouched previous contents with every write count 0 and no row assigned. -/
theorem c4_no_single_process_render {width height chunkSz : ℕ}
    (payload : ℕ → ℕ → ℕ → ℤ) (buf0 : ℕ → ℤ) {σ : MState 0}
    (h : Reach width height chunkSz payload (initState 0 buf0) σ) :
    activeOf σ = 0 ∧ (∀ j, σ.buf j = buf0 j) ∧ (∀ j, σ.wcount j = 0) ∧
    (∀ r, σ.acount r = 0) := by
  have he := reach_zero_workers h
  subst he
  refine ⟨?_, fun j => rfl, fun j => rfl, fun r => rfl⟩
  rw [activeOf_eq_zero_iff]
  intro w
  exact w.elim0

/-- Witness for the C4 theorem at a concrete zero-worker run. -/
theorem c4_witness :
    activeOf (initState 0 (fun _ => (1:ℤ))) = 0 ∧
    (∀ j, (initState 0 (fun _ => (1:ℤ))).buf j = (fun _ => (1:ℤ)) j) ∧
    (∀ j, (initState 0 (fun _ => (1:ℤ))).wcount j = 0) ∧
    (∀ r, (initState 0 (fun _ => (1:ℤ))).acount r = 0) :=
  @c4_no_single_process_render 1 1 CHUNK_SIZE
    (chunkPayload 1 0 0 1 1 1) (fun _ => 1) (initState 0 (fun _ => 1))
    Relation.ReflTransGen.refl

/-- Claim C10: in every reachable state of the frame protocol the RESULT a
worker sends carries the `(startY, chunkSize)` pair of the ASSIGN it answers
(in the model the `result` step reads that pair from the worker's own
phase, as the C worker echoes its `startY`/`chunkSize` variables); every
assigned chunk satisfies `startY + chunkSize ≤ height`, so the copied
payload lies inside the `3·width·height` frame buffer and bytes beyond it
are never modified. -/
theorem c10_result_in_bounds {width height chunkSz : ℕ} (hw : 0 < width)
    (hc : 0 < chunkSz) {payload : ℕ → ℕ → ℕ → ℤ} {W : ℕ} {buf0 : ℕ → ℤ}
    {σ : MState W}
    (h : Reach width height chunkSz payload (initState W buf0) σ) :
    (∀ w s n, σ.phase w = WPhase.busy s n → s + n ≤ height) ∧
    (∀ j, 3 * width * height ≤ j → σ.buf j = buf0 j) := by
  have hinv := inv_reach hw hc h
  exact ⟨fun w s n hb => le_trans (hinv.chunk_align w s n hb).2.2.2 hinv.next_le,
    fun j hj => (hinv.buf_hi j hj).1⟩

/-- Witness for the C10 theorem at a concrete reachable state. -/
theorem c10_witness :
    (∀ w s n, (initState 1 (fun _ => (0:ℤ))).phase w = WPhase.busy s n → s + n ≤ 1) ∧
    (∀ j, 3 * 1 * 1 ≤ j → (initState 1 (fun _ => (0:ℤ))).buf j = (fun _ => (0:ℤ)) j) :=
  @c10_result_in_bounds 1 1 CHUNK_SIZE (by norm_num)
    (by norm_num [CHUNK_SIZE] : 0 < CHUNK_SIZE)
    (chunkPayload 1 0 0 1 1 1) 1 (fun _ => 0) (initState 1 (fun _ => 0))
    Relation.ReflTransGen.refl

/-- Claim C3, counterexample to the claim as stated: on input `(2, 0)` with
`maxIter = 5` the escape loop ends at `(x, y, iter) = (6, 0, 2)`, and the
kernel's return value is not `iter + 1 − log₂(log(x² + y²)/2)`: the code
divides `log_zn` by `log 2` inside the outer logarithm (`nu =
log(log_zn / log 2) / log 2`) and moreover truncates the smooth count to an
`int` (returning `1`, while the claimed formula evaluates to a real in
`(2, 3)`). -/
theorem c3_counterexample :
    ((mandelbrot 2 0 5 : ℤ) : ℝ) ≠
      (2 : ℝ) + 1 - Real.log (Real.log ((6:ℝ) * 6 + 0 * 0) / 2) / Real.log 2 := by
  rw [mandelbrot_two_zero (by norm_num)]
  have h36 : (6:ℝ) * 6 + 0 * 0 = 36 := by norm_num
  rw [h36]
  have l2 : (0:ℝ) < Real.log 2 := Real.log_pos (by norm_num)
  have hpos6 : (0:ℝ) < Real.log 36 / 2 := by
    have h1 : (0:ℝ) < Real.log 36 := Real.log_pos (by norm_num)
    linarith
  have h6lt : Real.log 36 / 2 < 4 := by
    have h16 : Real.log 36 < Real.log 256 := Real.log_lt_log (by norm_num) (by norm_num)
    have e256 : Real.log 256 = 8 * Real.log 2 := by
      rw [show (256:ℝ) = 2 ^ 8 by norm_num, Real.log_pow]
      push_cast
      ring
    have hl2lt1 : Real.log 2 < 1 := by
      have h2e : (2:ℝ) < Real.exp 1 := by nlinarith [Real.exp_one_gt_d9]
      have := Real.log_lt_log (by norm_num) h2e
      rwa [Real.log_exp] at this
    nlinarith
  have hnu : Real.log (Real.log 36 / 2) / Real.log 2 < 2 := by
    have hlt : Real.log (Real.log 36 / 2) < Real.log 4 := Real.log_lt_log hpos6 h6lt
    have e4 : Real.log 4 = 2 * Real.log 2 := by
      rw [show (4:ℝ) = 2 ^ 2 by norm_num, Real.log_pow]
      push_cast
      ring
    rw [div_lt_iff₀ l2]
    linarith
  intro hcon
  push_cast at hcon
  linarith

/-- Claim C3, amended: when the escape loop exits early at `(x, y, iter)`
with `iter < maxIter`, the final squared radius exceeds `4`, the kernel
returns the smooth count `iter + 1 − log₂((log(x² + y²)/2) / log 2)` (the
inner `log 2` divisor is part of the code's formula) truncated toward zero
to an `int`, and whenever the final squared radius is at most `16` the
pre-truncation value lies in `[iter, iter + 1)`. -/
theorem c3_smooth {x0 y0 : ℝ} {maxIter : ℕ} {x y : ℝ} {it : ℕ}
    (hcore : mandelbrotCore x0 y0 maxIter = (x, y, it)) (hlt : it < maxIter) :
    mandelbrot x0 y0 maxIter = truncToInt (smoothValue x y it) ∧
    4 < x * x + y * y ∧
    (x * x + y * y ≤ 16 →
      (it : ℝ) ≤ smoothValue x y it ∧ smoothValue x y it < it + 1) := by
  have hesc := mandelbrotCore_escape x0 y0 maxIter (by rw [hcore]; exact hlt)
  rw [hcore] at hesc
  dsimp only at hesc
  refine ⟨?_, hesc, fun h16 => ⟨smoothValue_ge it hesc h16, smoothValue_lt it hesc⟩⟩
  rw [mandelbrot]
  simp [hcore, Nat.ne_of_lt hlt]

/-- Witness for C3's amended theorem at the concrete input `(2, 0)`,
`maxIter = 5`. -/
theorem c3_witness :
    mandelbrot 2 0 5 = truncToInt (smoothValue 6 0 2) ∧
    (4:ℝ) < 6 * 6 + 0 * 0 ∧
    ((6:ℝ) * 6 + 0 * 0 ≤ 16 →
      ((2:ℕ) : ℝ) ≤ smoothValue 6 0 2 ∧ smoothValue 6 0 2 < (2:ℕ) + 1) :=
  c3_smooth (mandelbrotCore_two_zero (by norm_num)) (by norm_num)

/-- Claim C5: the color mapper emits `(0, 0, 0)` exactly on counts
`i ≥ maxIter` (every interior point); for nonnegative counts its chained
hue comparisons and `fmod`-based `X` compute precisely the specification's
sextant-by-`⌊H/60⌋` HSV→RGB selection with `C = 1` and bytes
`trunc(channel·255)`; and no count below `maxIter` (no exterior point) maps
to `(0, 0, 0)` because one channel is always `255`. -/
theorem c5_hsv_mapper (i : ℝ) (maxIter : ℕ) (_hm : 0 < maxIter) :
    ((maxIter : ℝ) ≤ i → iteration_to_color i maxIter = (0, 0, 0)) ∧
    (0 ≤ i → iteration_to_color i maxIter = hsvSpecColor i maxIter) ∧
    (i < (maxIter : ℝ) → iteration_to_color i maxIter ≠ (0, 0, 0)) :=
  ⟨fun h => iteration_to_color_black h, fun h => iteration_to_color_eq_spec h,
    fun h => iteration_to_color_ne_black h⟩

/-- Witness for the C5 theorem at `i = 100`, `maxIter = 200`. -/
theorem c5_witness :
    (((200:ℕ) : ℝ) ≤ 100 → iteration_to_color 100 200 = (0, 0, 0)) ∧
    ((0:ℝ) ≤ 100 → iteration_to_color 100 200 = hsvSpecColor 100 200) ∧
    ((100:ℝ) < ((200:ℕ) : ℝ) → iteration_to_color 100 200 ≠ (0, 0, 0)) :=
  c5_hsv_mapper 100 200 (by norm_num)

/-- Claim C6, counterexample to the claim as stated: on input `(2, 0)` the
kernel's loop does not stop with `iter = 0` after the first test - the
first test sees `(x, y) = (0, 0)` with `0 ≤ 4`, and after one iteration
`|z₁|² = 4 ≤ 4` still passes the boundary test - so the loop exits with
`iter = 2` (here at `maxIter = 5`). -/
theorem c6_counterexample :
    (mandelbrotCore 2 0 5).2.2 = 2 ∧ (mandelbrotCore 2 0 5).2.2 ≠ 0 := by
  rw [mandelbrotCore_two_zero (by norm_num)]
  norm_num

/-- Claim C6, amended: for `(cx, cy) = (0, 0)` the kernel returns `maxIter`
and the mapper colors it `(0, 0, 0)`; for `(cx, cy) = (2, 0)` (and
`maxIter ≥ 3`) the loop escapes after two iterations at `(x, y) = (6, 0)`
and the kernel returns the well-defined finite value `1`. -/
theorem c6_kernel_values {maxIter : ℕ} (h3 : 3 ≤ maxIter) :
    mandelbrotCore 0 0 maxIter = (0, 0, maxIter) ∧
    mandelbrot 0 0 maxIter = (maxIter : ℤ) ∧
    iteration_to_color ((maxIter : ℤ) : ℝ) maxIter = (0, 0, 0) ∧
    mandelbrotCore 2 0 maxIter = (6, 0, 2) ∧
    mandelbrot 2 0 maxIter = 1 :=
  ⟨mandelbrotCore_zero maxIter, mandelbrot_zero maxIter,
    iteration_to_color_black (by push_cast; exact le_refl _),
    mandelbrotCore_two_zero h3, mandelbrot_two_zero h3⟩

/-- Witness for C6's amended theorem at `maxIter = 5`. -/
theorem c6_witness :
    mandelbrotCore 0 0 5 = (0, 0, 5) ∧
    mandelbrot 0 0 5 = ((5:ℕ) : ℤ) ∧
    iteration_to_color (((5:ℕ) : ℤ) : ℝ) 5 = (0, 0, 0) ∧
    mandelbrotCore 2 0 5 = (6, 0, 2) ∧
    mandelbrot 2 0 5 = 1 :=
  c6_kernel_values (by norm_num)

/-- Claim C7: for all positive `width`, `height`, `zoom > 0`, every pixel
`(x, y)` of a chunk `[startY, endY)` is colored at the complex coordinate
`centerX + (x − width/2)·scale`, `centerY + (y − height/2)·scale` with
`scale = 4/(width·zoom)` (that is `pixelColor`, built from
`map_pixel_to_complex` and the kernel), and each channel byte lands at
offset `((y − startY)·width + x)·3 + channel` of the chunk's buffer. -/
theorem c7_row_chunk_renderer (zoom cX cY : ℝ) (_hz : 0 < zoom)
    (startY endY width height maxIter : ℕ) (_hh : 0 < height)
    (buffer : ℕ → ℤ) (x y ch : ℕ) (hx : x < width) (hy1 : startY ≤ y)
    (hy2 : y < endY) (hch : ch < 3) :
    compute_rows zoom cX cY startY endY width height maxIter buffer
        (((y - startY) * width + x) * 3 + ch) =
      rgbByte (pixelColor zoom cX cY width height maxIter x y) ch := by
  rw [compute_rows_eq]
  set ly := y - startY with hly
  have hlyr : ly < endY - startY := by omega
  have h1 : ly * width + x < (endY - startY) * width := by
    calc ly * width + x < ly * width + width := by omega
      _ = (ly + 1) * width := by ring
      _ ≤ (endY - startY) * width := Nat.mul_le_mul_right width (by omega)
  have hjlt : (ly * width + x) * 3 + ch < (endY - startY) * (width * 3) := by
    have e : (endY - startY) * (width * 3) = (endY - startY) * width * 3 := by ring
    omega
  rw [if_pos hjlt, chunkByte]
  have hrem : x * 3 + ch < width * 3 := by omega
  have hB : 0 < width * 3 := by omega
  have he : (ly * width + x) * 3 + ch = width * 3 * ly + (x * 3 + ch) := by ring
  have hdm := block_div_mod (B := width * 3) (r := x * 3 + ch) ly hB hrem
  rw [he, hdm.1, hdm.2]
  have hx3 : (x * 3 + ch) / 3 = x := by
    have e3 : x * 3 + ch = 3 * x + ch := by ring
    rw [e3, Nat.mul_add_div (by norm_num), Nat.div_eq_of_lt hch]
    omega
  have hmod3 : (width * 3 * ly + (x * 3 + ch)) % 3 = ch := by
    have e : width * 3 * ly + (x * 3 + ch) = 3 * (width * ly + x) + ch := by ring
    rw [e, Nat.mul_add_mod, Nat.mod_eq_of_lt hch]
  rw [hx3, hmod3]
  have hyy : startY + ly = y := by omega
  rw [hyy]

/-- Witness for the C7 theorem at a concrete pixel. -/
theorem c7_witness :
    compute_rows 1 0 0 0 1 1 1 1 (fun _ => 0) (((0 - 0) * 1 + 0) * 3 + 0) =
      rgbByte (pixelColor 1 0 0 1 1 1 0 0) 0 :=
  c7_row_chunk_renderer 1 0 0 (by norm_num) 0 1 1 1 1 (by norm_num) (fun _ => 0)
    0 0 0 (by norm_num) (by norm_num) (by norm_num) (by norm_num)

/-- Claim C8: the run terminates with exit code 0 on every input stream; for
every stream the broadcast zoom sequence ends with a nonpositive value, so
every worker exits; and a malformed line reached after well-formed
positive-zoom lines emits the diagnostic and terminates the run with only
the preceding frames rendered. -/
theorem c8_stream_termination :
    (∀ stream : List InLine, (runMaster stream).2.2 = 0) ∧
    (∀ stream : List InLine, workerRun (broadcasts stream) = true) ∧
    (∀ pre post : List InLine,
      (∀ l ∈ pre, ∃ z cx cy, l = InLine.good z cx cy ∧ 0 < z) →
      runMaster (pre ++ InLine.bad :: post) = (pre.filterMap viewOf, true, 0)) :=
  ⟨runMaster_exit_zero, broadcasts_end_nonpos, runMaster_bad⟩

/-- Witness for the C8 theorem at concrete streams. -/
theorem c8_witness :
    (runMaster [InLine.good 1 0 0, InLine.bad]).2.2 = 0 ∧
    workerRun (broadcasts [InLine.good 1 0 0]) = true ∧
    runMaster ([InLine.good 1 0 0] ++ InLine.bad :: [InLine.good 2 0 0]) =
      ([InLine.good 1 0 0].filterMap viewOf, true, 0) := by
  refine ⟨c8_stream_termination.1 [InLine.good 1 0 0, InLine.bad],
    c8_stream_termination.2.1 [InLine.good 1 0 0],
    c8_stream_termination.2.2 [InLine.good 1 0 0] [InLine.good 2 0 0] ?_⟩
  intro l hl
  rw [List.mem_singleton] at hl
  subst hl
  exact ⟨1, 0, 0, rfl, by norm_num⟩

/-- Claim C9: the kernel's escape loop runs at most `maxIter` iterations (it
is a total function of its fuel), the returned value never exceeds
`maxIter`, and it equals `maxIter` exactly when the loop completed all
`maxIter` iterations with every escape test `x² + y² > 4` failing. -/
theorem c9_kernel_total (x0 y0 : ℝ) {maxIter : ℕ} (hm : 1 ≤ maxIter) :
    (mandelbrotCore x0 y0 maxIter).2.2 ≤ maxIter ∧
    mandelbrot x0 y0 maxIter ≤ (maxIter : ℤ) ∧
    (mandelbrot x0 y0 maxIter = (maxIter : ℤ) ↔
      (mandelbrotCore x0 y0 maxIter).2.2 = maxIter) :=
  ⟨mandelbrotCore_iter_le x0 y0 maxIter, mandelbrot_le x0 y0 hm,
    mandelbrot_eq_max_iff x0 y0 hm⟩

/-- Witness for the C9 theorem at `(0, 0)`, `maxIter = 5`. -/
theorem c9_witness :
    (mandelbrotCore 0 0 5).2.2 ≤ 5 ∧
    mandelbrot 0 0 5 ≤ ((5:ℕ) : ℤ) ∧
    (mandelbrot 0 0 5 = ((5:ℕ) : ℤ) ↔ (mandelbrotCore 0 0 5).2.2 = 5) :=
  c9_kernel_total 0 0 (by norm_num)

end Fractal
